import Mathlib

/-!
A shallow embedding of the `bintable` storage format (`bintable.py`): the
`write` function packs the columns of a table into one shared backing file per
storage-type key (plus one shared mask file), records per-column
offset/length bookkeeping in a manifest that is committed by an atomic
rename, and the `read` function reconstructs the table by re-slicing the
shared buffers through a per-call cache of opened files.

Column payloads are modelled as lists of opaque values, the dataset
directory as an association list from file names to file contents, and
`write` as a planning phase producing a trace of filesystem operations, so
that interruption (a prefix of the trace) is expressible.
-/

namespace BinTable

/-- An opaque cell value: the embedding does not interpret numeric payloads,
it only tracks their identity (numpy round-trips them bit-exactly). -/
inductive Val
  | int : Int → Val
  | str : String → Val
  | null : Val
deriving DecidableEq

/-- One astropy column as `write` consumes it: `dtypeChar` models
`col.dtype.char`, `dtypeStr` models `str(col.dtype)`, `mask` models
`col.mask` (all-`false` when the table is unmasked), `unit` models
`str(col.unit)` when a unit is attached. -/
structure Column where
  name : String
  dtypeChar : Char
  dtypeStr : String
  data : List Val
  mask : List Bool
  unit : Option String
deriving DecidableEq

/-- An astropy table: ordered columns, the `masked` flag and the opaque
metadata mapping (round-tripped verbatim, so modelled as one opaque value). -/
structure Table where
  columns : List Column
  masked : Bool
  meta : String
deriving DecidableEq

/-- One entry of the manifest's `columns` list. -/
structure ColumnEntry where
  name : String
  file : String
  offset : Nat
  length : Nat
  maskoffset : Option Nat
  unit : Option String
deriving DecidableEq

/-- The persisted manifest `{"meta": ..., "masked": ..., "columns": [...]}`. -/
structure Manifest where
  meta : String
  masked : Bool
  columns : List ColumnEntry
deriving DecidableEq

/-- Contents of one file in the dataset directory: the JSON manifest, a
binary `.npy` array of values, the boolean `.npy` mask array, or the JSON
text-column file. -/
inductive FileContent
  | manifest : Manifest → FileContent
  | npyData : List Val → FileContent
  | npyBools : List Bool → FileContent
  | jsonData : List Val → FileContent
deriving DecidableEq

deriving instance DecidableEq for Except

/-- A dataset directory: file name to content, in creation order. -/
abbrev Fs := List (String × FileContent)

/-- Association-list lookup by file/key name (the first binding wins, as
for `List.find?`). -/
def lookupA {α : Type} : List (String × α) → String → Option α
  | [], _ => none
  | p :: l, k => if p.1 == k then some p.2 else lookupA l k

def getFile (fs : Fs) (n : String) : Option FileContent := lookupA fs n

def setFile (fs : Fs) (n : String) (c : FileContent) : Fs :=
  if fs.any (fun p => p.1 == n) then fs.map (fun p => if p.1 == n then (n, c) else p)
  else fs ++ [(n, c)]

def removeFile (fs : Fs) (n : String) : Fs := fs.filter (fun p => !(p.1 == n))

/-- A filesystem operation performed by `write` inside the target path. -/
inductive FsOp
  | mkdir : FsOp
  | create : String → FileContent → FsOp
  | rename : String → String → FsOp
deriving DecidableEq

def isCreateOp : FsOp → Bool
  | FsOp.create _ _ => true
  | _ => false

/-- The directory state: `none` means the target path does not exist. -/
def applyOp : Option Fs → FsOp → Option Fs
  | none, FsOp.mkdir => some []
  | some fs, FsOp.mkdir => some fs
  | none, _ => none
  | some fs, FsOp.create n c => some (setFile fs n c)
  | some fs, FsOp.rename src dst =>
    match getFile fs src with
    | some c => some (setFile (removeFile fs src) dst c)
    | none => some fs

def applyOps (d : Option Fs) (ops : List FsOp) : Option Fs := ops.foldl applyOp d

def fileAt : Option Fs → String → Option FileContent
  | none, _ => none
  | some fs, n => getFile fs n

/-- Character containment in a string, modelling Python's `ch in s`. -/
def strContains (s : String) (ch : Char) : Bool := s.data.any (fun a => a == ch)

/-- Suffix test on strings, modelling Python's `s.endswith(t)`. -/
def strEndsWith (s t : String) : Bool :=
  decide (s.data.reverse.take t.data.length = t.data.reverse)

/-- `col.dtype.char in ("S", "U")`: the column is a text column. -/
def isText (c : Column) : Bool := c.dtypeChar == 'S' || c.dtypeChar == 'U'

/-- The storage-type key: the `"text"` bucket for string/unicode columns,
otherwise `str(col.dtype)`. -/
def colKey (c : Column) : String := if isText c then "text" else c.dtypeStr

/-- The backing-file name chosen when a column's key is first seen:
`"data.text.json"` for text, `f"data.{dt}.npy"` otherwise. -/
def defaultName (c : Column) : String :=
  if isText c then "data.text.json" else "data." ++ c.dtypeStr ++ ".npy"

/-- Python's `np.any(col.mask)`: the column has at least one invalid entry. -/
def maskedCol (c : Column) : Bool := c.mask.any id

/-- The per-key accumulator: the Python dict
`{"name": ..., "datas": [...], "length": ...}`; `datas` holds the appended
column payloads as chunks (extending the JSON list with `tolist()` and
appending arrays later concatenated by `np.save` both produce the
concatenation, saved by `saveContent`). -/
structure DataFile where
  name : String
  datas : List (List Val)
  length : Nat
deriving DecidableEq

def getDf (dfs : List (String × DataFile)) (k : String) : Option DataFile := lookupA dfs k

/-- `datafiles.setdefault(key, fresh)` followed by the in-place
`length += n` / `datas` append for column `c`. -/
def dfStep (dfs : List (String × DataFile)) (c : Column) : List (String × DataFile) :=
  match getDf dfs (colKey c) with
  | some _ =>
    dfs.map (fun p =>
      if p.1 == colKey c then
        (p.1, { p.2 with datas := p.2.datas ++ [c.data], length := p.2.length + c.data.length })
      else p)
  | none =>
    dfs ++ [(colKey c, { name := defaultName c, datas := [c.data], length := c.data.length })]

inductive WriteError
  | assertionError : WriteError
  | fileExistsError : WriteError
deriving DecidableEq

/-- The column loop of `write`: classify each column, append its payload to
the accumulator of its key (recording the offset = the accumulator's length
before the append), record its mask when the table is masked and the column
has an invalid entry, and build its manifest entry.  The two `assert`
statements of the source (`"<" not in dt` and `col.mask.shape == (n,)`)
become `assertionError` results. -/
def plan (masked : Bool) :
    List (String × DataFile) → Nat → List Column →
    Except WriteError (List ColumnEntry × List (String × DataFile) × List (List Bool) × Nat)
  | dfs, mlen, [] => Except.ok ([], dfs, [], mlen)
  | dfs, mlen, c :: cs =>
    if !isText c && strContains c.dtypeStr '<' then Except.error WriteError.assertionError
    else
      let n := c.data.length
      let i := (getDf dfs (colKey c)).elim 0 DataFile.length
      let file := (getDf dfs (colKey c)).elim (defaultName c) DataFile.name
      let hasM := masked && maskedCol c
      if hasM && !(c.mask.length == n) then Except.error WriteError.assertionError
      else
        let entry : ColumnEntry :=
          { name := c.name, file := file, offset := i, length := n
          , maskoffset := if hasM then some mlen else none
          , unit := c.unit }
        match plan masked (dfStep dfs c) (if hasM then mlen + n else mlen) cs with
        | Except.error e => Except.error e
        | Except.ok (entries, dfs2, masks, mlen2) =>
          Except.ok (entry :: entries, dfs2, (if hasM then [c.mask] else []) ++ masks, mlen2)

/-- Serialization of one accumulator: `json.dumps` of the flat value list
for the `.json` text file, `np.save` of the concatenation otherwise. -/
def saveContent (df : DataFile) : FileContent :=
  if strEndsWith df.name ".json" then FileContent.jsonData df.datas.flatten
  else FileContent.npyData df.datas.flatten

/-- `write(table, path)`: plan the layout, check the target directory
(the source checks for the temporary manifest name twice; the duplicated
check is kept), then emit the operation trace: temporary manifest, mask
file (if any column was masked), one file per storage-type key, and the
committing rename. -/
def write (t : Table) (d : Option Fs) : Except WriteError (List FsOp) :=
  match plan t.masked [] 0 t.columns with
  | Except.error e => Except.error e
  | Except.ok (columns, datafiles, maskdatas, _masklength) =>
    let pre : Except WriteError (List FsOp) :=
      match d with
      | some fs =>
        if (getFile fs "bintable.json_").isNone && (getFile fs "bintable.json_").isNone then
          Except.error WriteError.fileExistsError
        else Except.ok []
      | none => Except.ok [FsOp.mkdir]
    match pre with
    | Except.error e => Except.error e
    | Except.ok preOps =>
      let m : Manifest := { meta := t.meta, masked := t.masked, columns := columns }
      let maskOps : List FsOp :=
        if maskdatas.isEmpty then []
        else [FsOp.create "mask.npy" (FileContent.npyBools maskdatas.flatten)]
      let dataOps : List FsOp := datafiles.map (fun p => FsOp.create p.2.name (saveContent p.2))
      Except.ok ([FsOp.create "bintable.json_" (FileContent.manifest m)]
        ++ maskOps ++ dataOps ++ [FsOp.rename "bintable.json_" "bintable.json"]
        |> (preOps ++ ·))

/-- The directory state after a `write` call: the trace applied on success,
the input state unchanged on failure (the source raises before touching the
filesystem in every failure case). -/
def writeFs (t : Table) (d : Option Fs) : Option Fs :=
  match write t d with
  | Except.ok tr => applyOps d tr
  | Except.error _ => d

inductive ReadError
  | fileNotFoundError : ReadError
  | keyError : ReadError
  | assertionError : ReadError
  | valueError : ReadError
deriving DecidableEq

/-- One column of the reconstructed table: sliced values, overlay mask
(all-`false` when the manifest entry has no `maskoffset`), resolved unit
(unit resolution is pure and modelled by the unit string itself). -/
structure ReadCol where
  name : String
  data : List Val
  mask : List Bool
  unit : Option String
deriving DecidableEq

/-- The reconstructed table. -/
structure ReadResult where
  meta : String
  masked : Bool
  cols : List ReadCol
deriving DecidableEq

/-- The reader's per-call state: the `backing` cache of opened files, the
lazily opened mask buffer, and the log of files opened so far. -/
structure RState where
  backing : List (String × List Val)
  maskedbacking : Option (List Bool)
  opened : List String
deriving DecidableEq

/-- Opening one backing file fresh from the directory: the `assert "/" not
in column["file"]` guard, then dispatch on the `.npy` / `.json` suffix
(neither suffix leaves the file uncached, so the later `backing[...]`
subscript raises `KeyError`). -/
def loadFromFs (fs : Fs) (file : String) : Except ReadError (List Val) :=
  if strContains file '/' then Except.error ReadError.assertionError
  else if strEndsWith file ".npy" then
    match getFile fs file with
    | none => Except.error ReadError.fileNotFoundError
    | some (FileContent.npyData vs) => Except.ok vs
    | some _ => Except.error ReadError.valueError
  else if strEndsWith file ".json" then
    match getFile fs file with
    | none => Except.error ReadError.fileNotFoundError
    | some (FileContent.jsonData vs) => Except.ok vs
    | some _ => Except.error ReadError.valueError
  else Except.error ReadError.keyError

/-- `np.load` of the shared mask file. -/
def loadMask (fs : Fs) : Except ReadError (List Bool) :=
  match getFile fs "mask.npy" with
  | none => Except.error ReadError.fileNotFoundError
  | some (FileContent.npyBools bs) => Except.ok bs
  | some _ => Except.error ReadError.valueError

/-- Fetch a column's backing buffer through the per-call cache, opening and
caching it on a miss. -/
def loadColFile (fs : Fs) (st : RState) (file : String) :
    Except ReadError (List Val) × RState :=
  match lookupA st.backing file with
  | some vs => (Except.ok vs, st)
  | none =>
    match loadFromFs fs file with
    | Except.error e => (Except.error e, st)
    | Except.ok vs =>
      (Except.ok vs, { st with backing := st.backing ++ [(file, vs)], opened := st.opened ++ [file] })

/-- Processing of one manifest entry by the reader: fetch the backing
buffer, slice `[offset : offset+length]`, overlay the mask slice when
`maskoffset` is present (opening the mask file once, cached). -/
def processColumn (fs : Fs) (st : RState) (e : ColumnEntry) :
    Except ReadError ReadCol × RState :=
  match loadColFile fs st e.file with
  | (Except.error err, st1) => (Except.error err, st1)
  | (Except.ok vs, st1) =>
    let a := (vs.drop e.offset).take e.length
    match e.maskoffset with
    | none =>
      (Except.ok { name := e.name, data := a, mask := List.replicate a.length false, unit := e.unit }, st1)
    | some mo =>
      match st1.maskedbacking with
      | some bs =>
        (Except.ok { name := e.name, data := a, mask := (bs.drop mo).take e.length, unit := e.unit }, st1)
      | none =>
        match loadMask fs with
        | Except.error err => (Except.error err, st1)
        | Except.ok bs =>
          (Except.ok { name := e.name, data := a, mask := (bs.drop mo).take e.length, unit := e.unit },
            { st1 with maskedbacking := some bs, opened := st1.opened ++ ["mask.npy"] })

/-- The reader's column loop. -/
def readLoop (fs : Fs) : RState → List ColumnEntry → Except ReadError (List ReadCol) × RState
  | st, [] => (Except.ok [], st)
  | st, e :: es =>
    match processColumn fs st e with
    | (Except.error err, st1) => (Except.error err, st1)
    | (Except.ok rc, st1) =>
      match readLoop fs st1 es with
      | (Except.error err, st2) => (Except.error err, st2)
      | (Except.ok rcs, st2) => (Except.ok (rc :: rcs), st2)

/-- `coldict = {c["name"]: c for c in columns}` followed by `coldict[n]`:
a later entry with the same name overwrites an earlier one. -/
def coldictFind (entries : List ColumnEntry) (n : String) : Option ColumnEntry :=
  entries.reverse.find? (fun e => e.name == n)

/-- `[coldict[n] for n in only_columns]`, raising `KeyError` on a missing
name. -/
def resolveSubset (entries : List ColumnEntry) : List String → Except ReadError (List ColumnEntry)
  | [] => Except.ok []
  | n :: ns =>
    match coldictFind entries n with
    | none => Except.error ReadError.keyError
    | some e =>
      match resolveSubset entries ns with
      | Except.error err => Except.error err
      | Except.ok es => Except.ok (e :: es)

/-- The entries the reader will process: the full manifest list, or the
requested subset in request order. -/
def requestedEntries (m : Manifest) : Option (List String) → Except ReadError (List ColumnEntry)
  | none => Except.ok m.columns
  | some names => resolveSubset m.columns names

/-- `read(path, only_columns=...)`: parse the committed manifest, resolve
the requested subset, run the column loop, and assemble the table.  The
second component is the log of backing files opened during the call. -/
def read (d : Option Fs) (onlyColumns : Option (List String)) :
    Except ReadError ReadResult × List String :=
  match d with
  | none => (Except.error ReadError.fileNotFoundError, [])
  | some fs =>
    match getFile fs "bintable.json" with
    | some (FileContent.manifest m) =>
      match requestedEntries m onlyColumns with
      | Except.error e => (Except.error e, [])
      | Except.ok entries =>
        match readLoop fs { backing := [], maskedbacking := none, opened := [] } entries with
        | (Except.ok rcs, st) => (Except.ok { meta := m.meta, masked := m.masked, cols := rcs }, st.opened)
        | (Except.error e, st) => (Except.error e, st.opened)
    | some _ => (Except.error ReadError.valueError, [])
    | none => (Except.error ReadError.fileNotFoundError, [])

/-- Cache-free processing of one manifest entry; `readLoop` computes
exactly this on every entry (the cache only avoids re-opening). -/
def readColPure (fs : Fs) (e : ColumnEntry) : Except ReadError ReadCol :=
  match loadFromFs fs e.file with
  | Except.error err => Except.error err
  | Except.ok vs =>
    let a := (vs.drop e.offset).take e.length
    match e.maskoffset with
    | none =>
      Except.ok { name := e.name, data := a, mask := List.replicate a.length false, unit := e.unit }
    | some mo =>
      match loadMask fs with
      | Except.error err => Except.error err
      | Except.ok bs =>
        Except.ok { name := e.name, data := a, mask := (bs.drop mo).take e.length, unit := e.unit }

def mapE {α β : Type} (f : α → Except ReadError β) : List α → Except ReadError (List β)
  | [] => Except.ok []
  | a :: l =>
    match f a with
    | Except.error e => Except.error e
    | Except.ok b =>
      match mapE f l with
      | Except.error e => Except.error e
      | Except.ok bs => Except.ok (b :: bs)

/- Specification-side closed forms for the outputs of `plan`. -/

/-- Total rows contributed by the columns of key `k`. -/
def rowsOfKey (k : String) (cs : List Column) : Nat :=
  ((cs.filter (fun c => colKey c == k)).map (fun c => c.data.length)).sum

/-- The payload chunks contributed by the columns of key `k`, in order. -/
def chunksOfKey (k : String) (cs : List Column) : List (List Val) :=
  (cs.filter (fun c => colKey c == k)).map (fun c => c.data)

/-- The backing-file name of key `k`: chosen by the first column of that
key. -/
def keyName (k : String) (cs : List Column) : String :=
  match cs.find? (fun c => colKey c == k) with
  | some c => defaultName c
  | none => ""

def usedKey (k : String) (cs : List Column) : Bool := cs.any (fun c => colKey c == k)

/-- The running mask offset: total rows of the masked columns so far. -/
def maskRows (masked : Bool) (cs : List Column) : Nat :=
  if masked then ((cs.filter maskedCol).map (fun c => c.data.length)).sum else 0

/-- The collected mask chunks, in column order. -/
def maskChunks (masked : Bool) (cs : List Column) : List (List Bool) :=
  if masked then (cs.filter maskedCol).map (fun c => c.mask) else []

/-- The manifest entry `plan` builds for column `c` after the columns
`done`. -/
def mkEntry (masked : Bool) (done : List Column) (c : Column) : ColumnEntry :=
  { name := c.name
  , file := keyName (colKey c) (done ++ [c])
  , offset := rowsOfKey (colKey c) done
  , length := c.data.length
  , maskoffset := if masked && maskedCol c then some (maskRows masked done) else none
  , unit := c.unit }

/-- The manifest entries `plan` builds for `cs` after the columns `done`. -/
def entriesSpec (masked : Bool) : List Column → List Column → List ColumnEntry
  | _, [] => []
  | done, c :: cs => mkEntry masked done c :: entriesSpec masked (done ++ [c]) cs

/-- The accumulator state after processing `done`. -/
def dfsAfter (done : List Column) : List (String × DataFile) := List.foldl dfStep [] done

/-- The conditions under which `plan` accepts column `c`: no little-endian
marker in a non-text dtype, and a well-shaped mask when one is recorded. -/
def ColOk (masked : Bool) (c : Column) : Prop :=
  (isText c = true ∨ strContains c.dtypeStr '<' = false) ∧
    (masked = true → maskedCol c = true → c.mask.length = c.data.length)

instance (masked : Bool) (c : Column) : Decidable (ColOk masked c) := by
  unfold ColOk; infer_instance

/-- Invariants every astropy table satisfies: each column's mask has one
entry per row, and `str(col.dtype)` never contains a path separator. -/
def TableWF (t : Table) : Prop :=
  ∀ c ∈ t.columns, c.mask.length = c.data.length ∧ strContains c.dtypeStr '/' = false

instance (t : Table) : Decidable (TableWF t) := by
  unfold TableWF; infer_instance

/-- The column `read` is specified to reproduce for an input column. -/
def expectedCol (masked : Bool) (c : Column) : ReadCol :=
  { name := c.name
  , data := c.data
  , mask := if masked then c.mask else List.replicate c.data.length false
  , unit := c.unit }

def dEntry : ColumnEntry := { name := "", file := "", offset := 0, length := 0, maskoffset := none, unit := none }

def dColumn : Column := { name := "", dtypeChar := 'x', dtypeStr := "", data := [], mask := [], unit := none }

def dReadCol : ReadCol := { name := "", data := [], mask := [], unit := none }

/-- The manifest `write t` commits. -/
def manifestSpec (t : Table) : Manifest :=
  { meta := t.meta, masked := t.masked, columns := entriesSpec t.masked [] t.columns }

/-- The mask-file operation of `write t` (absent when no column was masked). -/
def maskOpsSpec (t : Table) : List FsOp :=
  if (maskChunks t.masked t.columns).isEmpty then []
  else [FsOp.create "mask.npy" (FileContent.npyBools (maskChunks t.masked t.columns).flatten)]

/-- The per-storage-type-key file operations of `write t`, in first-use order. -/
def dataOpsSpec (t : Table) : List FsOp :=
  (dfsAfter t.columns).map (fun p => FsOp.create p.2.name (saveContent p.2))

/-- The full operation trace of a successful `write t` (`pre` is `[mkdir]`
when the target did not exist, `[]` otherwise). -/
def traceSpec (t : Table) (pre : List FsOp) : List FsOp :=
  pre ++ [FsOp.create "bintable.json_" (FileContent.manifest (manifestSpec t))]
    ++ maskOpsSpec t ++ dataOpsSpec t
    ++ [FsOp.rename "bintable.json_" "bintable.json"]

/-- The directory contents after a successful `write t` into a fresh path. -/
def filesSpec (t : Table) : Fs :=
  (if (maskChunks t.masked t.columns).isEmpty then []
   else [("mask.npy", FileContent.npyBools (maskChunks t.masked t.columns).flatten)])
  ++ (dfsAfter t.columns).map (fun p => (p.2.name, saveContent p.2))
  ++ [("bintable.json", FileContent.manifest (manifestSpec t))]

/-- The reader's cache is consistent with the directory: every cached buffer
is what a fresh open would return. -/
def CacheWF (fs : Fs) (st : RState) : Prop :=
  (∀ p ∈ st.backing, loadFromFs fs p.1 = Except.ok p.2) ∧
  (∀ bs, st.maskedbacking = some bs → loadMask fs = Except.ok bs)

/-- Every file opened so far has a bare (separator-free) name. -/
def OpenedOk (st : RState) : Prop :=
  ∀ f ∈ st.opened, strContains f '/' = false

/-- The reader-state invariant for one `read` call over `entries`: the open
log is duplicate-free and contains exactly the cached backing files plus
the mask file (when loaded), each justified by some requested entry. -/
def StInv (entries : List ColumnEntry) (st : RState) : Prop :=
  st.opened.Nodup
  ∧ (∀ g, g ∈ st.opened
      ↔ (g ∈ st.backing.map Prod.fst ∨ (g = "mask.npy" ∧ st.maskedbacking.isSome = true)))
  ∧ (∀ g ∈ st.backing.map Prod.fst, entries.any (fun e => e.file == g) = true)
  ∧ (st.maskedbacking.isSome = true → entries.any (fun e => e.maskoffset.isSome) = true)
  ∧ (∀ g ∈ st.backing.map Prod.fst, g ≠ "mask.npy")

/- Concrete example tables used to exercise the theorems. -/

/-- A three-column table: `int32`, unicode text, masked `float64` with a
unit (the spec's scenario table). -/
def exT : Table :=
  { columns :=
      [ { name := "id", dtypeChar := 'i', dtypeStr := "int32",
          data := [Val.int 1, Val.int 2, Val.int 3], mask := [false, false, false], unit := none }
      , { name := "name", dtypeChar := 'U', dtypeStr := "<U1",
          data := [Val.str "a", Val.str "b", Val.str "c"], mask := [false, false, false], unit := none }
      , { name := "flux", dtypeChar := 'f', dtypeStr := "float64",
          data := [Val.int 15, Val.int 25, Val.int 0], mask := [false, false, true], unit := some "Jy" } ]
  , masked := true
  , meta := "metadata" }

/-- A single-column table whose dtype string carries a big-endian marker. -/
def exBig : Table :=
  { columns :=
      [ { name := "a", dtypeChar := 'i', dtypeStr := ">i4",
          data := [Val.int 1], mask := [false], unit := none } ]
  , masked := false
  , meta := "" }

/-- A single-column table whose dtype string carries a little-endian marker. -/
def exLt : Table :=
  { columns :=
      [ { name := "a", dtypeChar := 'i', dtypeStr := "<i4",
          data := [Val.int 1], mask := [false], unit := none } ]
  , masked := false
  , meta := "" }

/-- Three `int32` columns, two masked, to exercise shared-file offsets. -/
def exW3 : Table :=
  { columns :=
      [ { name := "a", dtypeChar := 'i', dtypeStr := "int32",
          data := [Val.int 1, Val.int 2], mask := [true, false], unit := none }
      , { name := "b", dtypeChar := 'i', dtypeStr := "int32",
          data := [Val.int 3], mask := [false], unit := none }
      , { name := "c", dtypeChar := 'i', dtypeStr := "int32",
          data := [Val.int 4], mask := [true], unit := none } ]
  , masked := true
  , meta := "m" }

/-- A zero-column table (smallest write). -/
def exT0 : Table := { columns := [], masked := false, meta := "" }

/- Association-list lookup lemmas. -/

theorem lookupA_append {α : Type} (l1 l2 : List (String × α)) (k : String) :
    lookupA (l1 ++ l2) k = (lookupA l1 k).or (lookupA l2 k) := by
  induction l1 with
  | nil => simp [lookupA]
  | cons p l ih =>
    simp only [List.cons_append, lookupA]
    split
    · simp
    · exact ih

theorem lookupA_eq_none {α : Type} {l : List (String × α)} {k : String} :
    lookupA l k = none ↔ ∀ p ∈ l, p.1 ≠ k := by
  induction l with
  | nil => simp [lookupA]
  | cons p l ih =>
    simp only [lookupA]
    split
    · rename_i h
      simp only [beq_iff_eq] at h
      constructor
      · intro hc; cases hc
      · intro hall; exact absurd h (hall p (List.mem_cons_self p l))
    · rename_i h
      simp only [beq_iff_eq] at h
      rw [ih]
      constructor
      · intro hall q hq
        rcases List.mem_cons.mp hq with hq | hq
        · subst hq; exact h
        · exact hall q hq
      · intro hall q hq
        exact hall q (List.mem_cons_of_mem p hq)

theorem lookupA_mem {α : Type} {l : List (String × α)} {k : String} {v : α}
    (h : lookupA l k = some v) : (k, v) ∈ l := by
  induction l with
  | nil => cases h
  | cons p l ih =>
    simp only [lookupA] at h
    split at h
    · rename_i hp
      simp only [beq_iff_eq] at hp
      have hv : p.2 = v := by simpa using h
      have : p = (k, v) := by cases p; simp_all
      rw [← this]
      exact List.mem_cons_self p l
    · exact List.mem_cons_of_mem p (ih h)

theorem lookupA_of_mem_nodup {α : Type} {l : List (String × α)}
    (hnd : (l.map Prod.fst).Nodup) {k : String} {v : α} (hm : (k, v) ∈ l) :
    lookupA l k = some v := by
  induction l with
  | nil => cases hm
  | cons p l ih =>
    rw [List.map_cons, List.nodup_cons] at hnd
    rcases List.mem_cons.mp hm with h | h
    · subst h; simp [lookupA]
    · have hk : p.1 ≠ k := by
        intro he
        exact hnd.1 (he ▸ List.mem_map.mpr ⟨(k, v), h, rfl⟩)
      simp only [lookupA]
      rw [if_neg (by simpa using hk)]
      exact ih hnd.2 h

theorem lookupA_map_update_self {α : Type} (l : List (String × α)) (k : String) (f : α → α) :
    lookupA (l.map (fun p => if p.1 == k then (p.1, f p.2) else p)) k
      = (lookupA l k).map f := by
  induction l with
  | nil => rfl
  | cons p l ih =>
    by_cases hp : p.1 = k
    · have hb : (p.1 == k) = true := by simpa using hp
      simp only [List.map_cons, lookupA, hb, if_true]
      rfl
    · have hb : (p.1 == k) = false := by simpa using hp
      simp only [List.map_cons, lookupA, hb, Bool.false_eq_true, if_false]
      exact ih

theorem lookupA_map_update_ne {α : Type} (l : List (String × α)) (k k' : String) (f : α → α)
    (h : k' ≠ k) :
    lookupA (l.map (fun p => if p.1 == k then (p.1, f p.2) else p)) k'
      = lookupA l k' := by
  induction l with
  | nil => rfl
  | cons p l ih =>
    by_cases hp' : p.1 = k'
    · have hb : (p.1 == k) = false := by
        simp only [beq_eq_false_iff_ne, ne_eq]
        exact fun he => h (hp' ▸ he ▸ rfl)
      have hb' : (p.1 == k') = true := by simpa using hp'
      simp only [List.map_cons, lookupA, hb, Bool.false_eq_true, if_false, hb', if_true]
    · have hb' : (p.1 == k') = false := by simpa using hp'
      have hfst : (if p.1 == k then (p.1, f p.2) else p).1 = p.1 := by split <;> rfl
      simp only [List.map_cons, lookupA, hfst, hb', Bool.false_eq_true, if_false]
      exact ih

theorem lookupA_map_fst {α : Type} (l : List (String × α)) (k : String) (f : α → α) :
    (l.map (fun p => if p.1 == k then (p.1, f p.2) else p)).map Prod.fst = l.map Prod.fst := by
  induction l with
  | nil => rfl
  | cons p l ih =>
    simp only [List.map_cons, ih]
    split <;> rfl

/- File-name lemmas: every backing file name starts with 'd', is distinct
from the manifest and mask names, and determines the storage-type key. -/

theorem defaultName_head (c : Column) : (defaultName c).data.head? = some 'd' := by
  unfold defaultName
  split
  · rfl
  · rw [String.data_append, String.data_append]
    rw [show ("data." : String).data = 'd' :: ['a', 't', 'a', '.'] from rfl]
    simp [List.head?_append]

theorem ne_of_head_ne {s t : String} (h : s.data.head? ≠ t.data.head?) : s ≠ t :=
  fun e => h (e ▸ rfl)

theorem defaultName_ne_committed (c : Column) : defaultName c ≠ "bintable.json" := by
  apply ne_of_head_ne
  rw [defaultName_head]
  decide

theorem defaultName_ne_temp (c : Column) : defaultName c ≠ "bintable.json_" := by
  apply ne_of_head_ne
  rw [defaultName_head]
  decide

theorem defaultName_ne_mask (c : Column) : defaultName c ≠ "mask.npy" := by
  apply ne_of_head_ne
  rw [defaultName_head]
  decide

theorem text_json_ne_npy (s : String) : "data.text.json" ≠ "data." ++ s ++ ".npy" := by
  intro h
  have h2 := congrArg (fun x => x.data.reverse.head?) h
  simp only [String.data_append, List.reverse_append] at h2
  rw [show (".npy" : String).data.reverse = 'y' :: ['p', 'n', '.'] from rfl] at h2
  simp [List.head?_append] at h2

theorem data_npy_inj {s1 s2 : String}
    (h : "data." ++ s1 ++ ".npy" = "data." ++ s2 ++ ".npy") : s1 = s2 := by
  have h2 := congrArg String.data h
  simp only [String.data_append] at h2
  rw [List.append_assoc, List.append_assoc] at h2
  have h3 := List.append_cancel_left h2
  have h4 := List.append_cancel_right h3
  exact String.ext h4

theorem defaultName_inj {c1 c2 : Column}
    (h : defaultName c1 = defaultName c2) : colKey c1 = colKey c2 := by
  unfold defaultName at h
  unfold colKey
  by_cases h1 : isText c1 = true <;> by_cases h2 : isText c2 = true <;>
    simp only [h1, h2, if_true, Bool.false_eq_true, if_false] at h ⊢
  · exact absurd h (text_json_ne_npy c2.dtypeStr)
  · exact absurd h.symm (text_json_ne_npy c1.dtypeStr)
  · exact data_npy_inj h

theorem strEndsWith_append_npy (s : String) : strEndsWith (s ++ ".npy") ".npy" = true := by
  unfold strEndsWith
  rw [String.data_append, List.reverse_append]
  rw [List.take_left' (by rfl)]
  simp

theorem strEndsWith_append_npy_json (s : String) : strEndsWith (s ++ ".npy") ".json" = false := by
  unfold strEndsWith
  rw [String.data_append, List.reverse_append]
  apply decide_eq_false
  intro h
  have h2 := congrArg List.head? h
  rw [List.head?_take, if_neg (by decide)] at h2
  rw [show (".npy" : String).data.reverse = 'y' :: ['p', 'n', '.'] from rfl] at h2
  simp only [List.cons_append, List.head?_cons] at h2
  exact absurd h2 (by decide)

theorem defaultName_npy {c : Column} (h : isText c = false) :
    strEndsWith (defaultName c) ".npy" = true := by
  unfold defaultName
  rw [h]
  simp only [Bool.false_eq_true, if_false]
  exact strEndsWith_append_npy _

theorem defaultName_npy_not_json {c : Column} (h : isText c = false) :
    strEndsWith (defaultName c) ".json" = false := by
  unfold defaultName
  rw [h]
  simp only [Bool.false_eq_true, if_false]
  exact strEndsWith_append_npy_json _

theorem defaultName_text_json {c : Column} (h : isText c = true) :
    strEndsWith (defaultName c) ".npy" = false ∧ strEndsWith (defaultName c) ".json" = true := by
  unfold defaultName
  rw [h]
  refine ⟨?_, ?_⟩
  · show strEndsWith "data.text.json" ".npy" = false
    decide
  · show strEndsWith "data.text.json" ".json" = true
    decide

theorem strContains_append (s t : String) (ch : Char) :
    strContains (s ++ t) ch = (strContains s ch || strContains t ch) := by
  unfold strContains
  rw [String.data_append, List.any_append]

theorem defaultName_no_slash {c : Column} (h : strContains c.dtypeStr '/' = false) :
    strContains (defaultName c) '/' = false := by
  unfold defaultName
  split
  · decide
  · rw [strContains_append, strContains_append, h]
    decide

/- Append/snoc lemmas for the specification-side closed forms. -/

theorem rowsOfKey_append (k : String) (l1 l2 : List Column) :
    rowsOfKey k (l1 ++ l2) = rowsOfKey k l1 + rowsOfKey k l2 := by
  unfold rowsOfKey
  rw [List.filter_append, List.map_append, List.sum_append]

theorem chunksOfKey_append (k : String) (l1 l2 : List Column) :
    chunksOfKey k (l1 ++ l2) = chunksOfKey k l1 ++ chunksOfKey k l2 := by
  unfold chunksOfKey
  rw [List.filter_append, List.map_append]

theorem usedKey_append (k : String) (l1 l2 : List Column) :
    usedKey k (l1 ++ l2) = (usedKey k l1 || usedKey k l2) := by
  unfold usedKey
  exact List.any_append

theorem rowsOfKey_single (k : String) (c : Column) :
    rowsOfKey k [c] = if colKey c == k then c.data.length else 0 := by
  unfold rowsOfKey
  rw [List.filter_cons]
  split <;> simp

theorem chunksOfKey_single (k : String) (c : Column) :
    chunksOfKey k [c] = if colKey c == k then [c.data] else [] := by
  unfold chunksOfKey
  rw [List.filter_cons]
  split <;> simp

theorem usedKey_single (k : String) (c : Column) :
    usedKey k [c] = (colKey c == k) := by
  unfold usedKey
  simp

theorem keyName_of_used (k : String) (l1 l2 : List Column) (h : usedKey k l1 = true) :
    keyName k (l1 ++ l2) = keyName k l1 := by
  unfold keyName
  rw [List.find?_append]
  unfold usedKey at h
  rcases List.any_eq_true.mp h with ⟨c, hc, hp⟩
  cases hf : l1.find? (fun c => colKey c == k) with
  | none => exact absurd hp (List.find?_eq_none.mp hf c hc)
  | some c' => simp

theorem keyName_of_not_used (k : String) (l1 l2 : List Column) (h : usedKey k l1 = false) :
    keyName k (l1 ++ l2) = keyName k l2 := by
  unfold keyName
  rw [List.find?_append]
  have : l1.find? (fun c => colKey c == k) = none :=
    List.find?_eq_none.mpr (List.any_eq_false.mp h)
  rw [this]
  simp

theorem chunksOfKey_of_not_used (k : String) {l : List Column} (h : usedKey k l = false) :
    chunksOfKey k l = [] := by
  unfold chunksOfKey
  rw [List.filter_eq_nil_iff.mpr (List.any_eq_false.mp h)]
  rfl

theorem rowsOfKey_of_not_used (k : String) {l : List Column} (h : usedKey k l = false) :
    rowsOfKey k l = 0 := by
  unfold rowsOfKey
  rw [List.filter_eq_nil_iff.mpr (List.any_eq_false.mp h)]
  rfl

theorem maskRows_append (masked : Bool) (l1 l2 : List Column) :
    maskRows masked (l1 ++ l2) = maskRows masked l1 + maskRows masked l2 := by
  unfold maskRows
  split
  · rw [List.filter_append, List.map_append, List.sum_append]
  · rfl

theorem maskChunks_append (masked : Bool) (l1 l2 : List Column) :
    maskChunks masked (l1 ++ l2) = maskChunks masked l1 ++ maskChunks masked l2 := by
  unfold maskChunks
  split
  · rw [List.filter_append, List.map_append]
  · rfl

theorem maskRows_single (masked : Bool) (c : Column) :
    maskRows masked [c] = if masked && maskedCol c then c.data.length else 0 := by
  unfold maskRows
  cases masked <;> simp [List.filter_cons] <;> split <;> simp_all

theorem maskChunks_single (masked : Bool) (c : Column) :
    maskChunks masked [c] = if masked && maskedCol c then [c.mask] else [] := by
  unfold maskChunks
  cases masked <;> simp [List.filter_cons] <;> split <;> simp_all

/- The accumulator state after a list of columns: closed form. -/

theorem dfsAfter_snoc (done : List Column) (c : Column) :
    dfsAfter (done ++ [c]) = dfStep (dfsAfter done) c := by
  unfold dfsAfter
  rw [List.foldl_append]
  rfl

theorem getDf_dfsAfter (done : List Column) : ∀ k : String,
    getDf (dfsAfter done) k =
      if usedKey k done then
        some { name := keyName k done, datas := chunksOfKey k done, length := rowsOfKey k done }
      else none := by
  induction done using List.reverseRecOn with
  | nil => intro k; rfl
  | append_singleton l c ih =>
    have ihL : ∀ k' : String, lookupA (dfsAfter l) k' =
        if usedKey k' l then
          some { name := keyName k' l, datas := chunksOfKey k' l, length := rowsOfKey k' l }
        else none := by
      intro k'
      have h := ih k'
      unfold getDf at h
      exact h
    intro k
    rw [dfsAfter_snoc]
    unfold dfStep getDf
    rw [ihL (colKey c)]
    by_cases hused : usedKey (colKey c) l = true
    · rw [if_pos hused]
      dsimp only
      by_cases hk : k = colKey c
      · subst hk
        rw [lookupA_map_update_self (dfsAfter l) (colKey c)
          (fun v => { name := v.name, datas := v.datas ++ [c.data], length := v.length + c.data.length })]
        rw [ihL (colKey c), if_pos hused]
        rw [if_pos (by rw [usedKey_append, hused]; rfl)]
        rw [keyName_of_used (colKey c) l [c] hused, chunksOfKey_append, rowsOfKey_append,
          chunksOfKey_single, rowsOfKey_single]
        simp
      · rw [lookupA_map_update_ne (dfsAfter l) (colKey c) k
          (fun v => { name := v.name, datas := v.datas ++ [c.data], length := v.length + c.data.length }) hk]
        rw [ihL k]
        have hck : (colKey c == k) = false := by
          simp only [beq_eq_false_iff_ne, ne_eq]
          exact fun he => hk he.symm
        rw [usedKey_append, usedKey_single, hck, Bool.or_false]
        by_cases hu : usedKey k l = true
        · rw [if_pos hu, if_pos hu]
          rw [keyName_of_used k l [c] hu, chunksOfKey_append, rowsOfKey_append,
            chunksOfKey_single, rowsOfKey_single, hck]
          simp
        · rw [if_neg hu, if_neg hu]
    · rw [if_neg hused]
      dsimp only
      rw [lookupA_append, ihL k]
      by_cases hk : k = colKey c
      · subst hk
        rw [if_neg hused]
        have hck : (colKey c == colKey c) = true := by simp
        rw [if_pos (by rw [usedKey_append, usedKey_single, hck]; simp)]
        rw [keyName_of_not_used (colKey c) l [c] (by simpa using hused)]
        rw [chunksOfKey_append, rowsOfKey_append,
          chunksOfKey_of_not_used (colKey c) (by simpa using hused),
          rowsOfKey_of_not_used (colKey c) (by simpa using hused),
          chunksOfKey_single, rowsOfKey_single, hck]
        simp only [List.nil_append, Nat.zero_add, if_true, Option.none_or]
        unfold keyName
        have hfind : List.find? (fun c' => colKey c' == colKey c) [c] = some c :=
          List.find?_cons_of_pos _ (by simp)
        rw [hfind]
        simp [lookupA]
      · have hck : (colKey c == k) = false := by
          simp only [beq_eq_false_iff_ne, ne_eq]
          exact fun he => hk he.symm
        rw [usedKey_append, usedKey_single, hck, Bool.or_false]
        have hninsingle : lookupA
            [(colKey c, ({ name := defaultName c, datas := [c.data], length := c.data.length } : DataFile))] k = none := by
          simp [lookupA, hck]
        rw [hninsingle]
        by_cases hu : usedKey k l = true
        · rw [if_pos hu, if_pos hu]
          rw [keyName_of_used k l [c] hu, chunksOfKey_append, rowsOfKey_append,
            chunksOfKey_single, rowsOfKey_single, hck]
          simp
        · rw [if_neg hu, if_neg hu]
          rfl

theorem dfsAfter_keys (done : List Column) :
    ((dfsAfter done).map Prod.fst).Nodup ∧
      ∀ k, (k ∈ (dfsAfter done).map Prod.fst ↔ usedKey k done = true) := by
  induction done using List.reverseRecOn with
  | nil => exact ⟨List.nodup_nil, fun k => by simp [dfsAfter, usedKey]⟩
  | append_singleton l c ih =>
    rw [dfsAfter_snoc]
    unfold dfStep
    have hg := getDf_dfsAfter l (colKey c)
    by_cases hused : usedKey (colKey c) l = true
    · rw [hg, if_pos hused]
      dsimp only
      rw [lookupA_map_fst (dfsAfter l) (colKey c)
        (fun v => { name := v.name, datas := v.datas ++ [c.data], length := v.length + c.data.length })]
      refine ⟨ih.1, fun k => ?_⟩
      rw [usedKey_append, usedKey_single, (ih.2 k)]
      by_cases hk : colKey c = k
      · subst hk
        simp [hused]
      · have : (colKey c == k) = false := by simpa using hk
        rw [this, Bool.or_false]
    · rw [hg, if_neg hused]
      dsimp only
      simp only [List.map_append, List.map_cons, List.map_nil]
      constructor
      · rw [List.nodup_append]
        refine ⟨ih.1, List.nodup_singleton _, fun k hk1 hk2 => ?_⟩
        have := (ih.2 k).mp hk1
        rcases List.mem_singleton.mp hk2 with rfl
        exact hused this
      · intro k
        rw [List.mem_append, List.mem_singleton, (ih.2 k), usedKey_append, usedKey_single]
        constructor
        · rintro (h | rfl)
          · rw [h]; rfl
          · simp
        · intro h
          rcases Bool.or_eq_true_iff.mp h with h | h
          · exact Or.inl h
          · have hkc : colKey c = k := by simpa using h
            exact Or.inr hkc.symm

theorem mem_dfsAfter {done : List Column} {p : String × DataFile} (hp : p ∈ dfsAfter done) :
    usedKey p.1 done = true ∧
      p.2 = { name := keyName p.1 done, datas := chunksOfKey p.1 done, length := rowsOfKey p.1 done } := by
  have hnd := (dfsAfter_keys done).1
  have hl : lookupA (dfsAfter done) p.1 = some p.2 := by
    apply lookupA_of_mem_nodup hnd
    cases p
    exact hp
  have hcf := getDf_dfsAfter done p.1
  unfold getDf at hcf
  rw [hl] at hcf
  by_cases hu : usedKey p.1 done = true
  · rw [if_pos hu] at hcf
    exact ⟨hu, Option.some.inj hcf⟩
  · rw [if_neg hu] at hcf
    cases hcf

theorem maskChunks_cons (masked : Bool) (c : Column) (cs : List Column) :
    maskChunks masked (c :: cs)
      = (if masked && maskedCol c then [c.mask] else []) ++ maskChunks masked cs := by
  rw [show c :: cs = [c] ++ cs from rfl, maskChunks_append, maskChunks_single]

theorem maskRows_cons (masked : Bool) (c : Column) (cs : List Column) :
    maskRows masked (c :: cs)
      = (if masked && maskedCol c then c.data.length else 0) + maskRows masked cs := by
  rw [show c :: cs = [c] ++ cs from rfl, maskRows_append, maskRows_single]

theorem keyName_single_self (c : Column) : keyName (colKey c) [c] = defaultName c := by
  unfold keyName
  rw [List.find?_cons_of_pos _ (by simp)]

/-- The entry built by `plan` for column `c` equals its closed form. -/
theorem plan_entry_eq (masked : Bool) (done : List Column) (c : Column) (mlen : Nat)
    (hml : mlen = maskRows masked done) :
    ({ name := c.name
     , file := (getDf (dfsAfter done) (colKey c)).elim (defaultName c) DataFile.name
     , offset := (getDf (dfsAfter done) (colKey c)).elim 0 DataFile.length
     , length := c.data.length
     , maskoffset := if masked && maskedCol c then some mlen else none
     , unit := c.unit } : ColumnEntry) = mkEntry masked done c := by
  subst hml
  unfold mkEntry
  rw [getDf_dfsAfter done (colKey c)]
  by_cases hused : usedKey (colKey c) done = true
  · rw [if_pos hused]
    rw [keyName_of_used (colKey c) done [c] hused]
    rfl
  · rw [if_neg hused]
    rw [keyName_of_not_used (colKey c) done [c] (by simpa using hused)]
    rw [keyName_single_self, rowsOfKey_of_not_used (colKey c) (by simpa using hused)]
    rfl

/-- `plan` computes the closed forms: entries, accumulators, mask chunks
and running mask length, for any prefix `done` already processed. -/
theorem plan_eq (masked : Bool) (cs : List Column) : ∀ done : List Column,
    (∀ c ∈ cs, ColOk masked c) →
    plan masked (dfsAfter done) (maskRows masked done) cs
      = Except.ok (entriesSpec masked done cs, dfsAfter (done ++ cs),
          maskChunks masked cs, maskRows masked (done ++ cs)) := by
  induction cs with
  | nil =>
    intro done _
    rw [List.append_nil]
    cases masked <;> simp [plan, entriesSpec, maskChunks]
  | cons c cs ih =>
    intro done h
    obtain ⟨hend, hmask⟩ := h c (List.mem_cons_self c cs)
    have hcs : ∀ c' ∈ cs, ColOk masked c' := fun c' hc' => h c' (List.mem_cons_of_mem c hc')
    have hg1 : (!isText c && strContains c.dtypeStr '<') = false := by
      rcases hend with h1 | h1
      · rw [h1]; rfl
      · rw [h1, Bool.and_false]
    have hg2 : ((masked && maskedCol c) && !(c.mask.length == c.data.length)) = false := by
      cases hM : masked && maskedCol c
      · rfl
      · have := hmask (Bool.and_eq_true_iff.mp hM).1 (Bool.and_eq_true_iff.mp hM).2
        rw [Bool.true_and]
        simp [this]
    unfold plan
    rw [hg1]
    simp only [Bool.false_eq_true, if_false]
    rw [hg2]
    simp only [Bool.false_eq_true, if_false]
    have hml : (if masked && maskedCol c
        then maskRows masked done + c.data.length else maskRows masked done)
        = maskRows masked (done ++ [c]) := by
      rw [maskRows_append, maskRows_single]
      cases hM : masked && maskedCol c <;> simp
    rw [← dfsAfter_snoc, hml, ih (done ++ [c]) hcs]
    have hassoc : (done ++ [c]) ++ cs = done ++ c :: cs := by
      rw [List.append_assoc]; rfl
    rw [hassoc]
    rw [plan_entry_eq masked done c (maskRows masked done) rfl]
    rw [show entriesSpec masked done (c :: cs)
      = mkEntry masked done c :: entriesSpec masked (done ++ [c]) cs from rfl]
    rw [maskChunks_cons]

theorem plan_ok_colOk (masked : Bool) (cs : List Column) :
    ∀ dfs mlen res, plan masked dfs mlen cs = Except.ok res → ∀ c ∈ cs, ColOk masked c := by
  induction cs with
  | nil => intro _ _ _ _ c hc; cases hc
  | cons c cs ih =>
    intro dfs mlen res h c' hc'
    unfold plan at h
    by_cases hg1 : (!isText c && strContains c.dtypeStr '<') = true
    · rw [if_pos hg1] at h; cases h
    rw [if_neg hg1] at h
    by_cases hg2 : ((masked && maskedCol c) && !(c.mask.length == c.data.length)) = true
    · rw [if_pos hg2] at h; cases h
    rw [if_neg hg2] at h
    rcases List.mem_cons.mp hc' with rfl | hc'
    · constructor
      · rcases Bool.and_eq_false_iff.mp (Bool.eq_false_iff.mpr hg1) with h1 | h1
        · exact Or.inl (by simpa using h1)
        · exact Or.inr h1
      · intro hm hmc
        rcases Bool.and_eq_false_iff.mp (Bool.eq_false_iff.mpr hg2) with h1 | h1
        · rw [hm, hmc] at h1; cases h1
        · have : (c'.mask.length == c'.data.length) = true := by
            cases hb : c'.mask.length == c'.data.length
            · rw [hb] at h1; cases h1
            · rfl
          simpa using this
    · cases hrec : plan masked (dfStep dfs c) (if masked && maskedCol c then mlen + c.data.length else mlen) cs with
      | error e => rw [hrec] at h; cases h
      | ok res' =>
        exact ih _ _ res' hrec c' hc'

theorem plan_bad (masked : Bool) (cs : List Column) (c : Column) (hc : c ∈ cs)
    (h1 : isText c = false) (h2 : strContains c.dtypeStr '<' = true) :
    ∀ dfs mlen, plan masked dfs mlen cs = Except.error WriteError.assertionError := by
  induction cs with
  | nil => cases hc
  | cons c0 cs ih =>
    intro dfs mlen
    unfold plan
    rcases List.mem_cons.mp hc with rfl | hm
    · rw [if_pos (by rw [h1, h2]; rfl)]
    · by_cases hg1 : (!isText c0 && strContains c0.dtypeStr '<') = true
      · rw [if_pos hg1]
      · rw [if_neg hg1]
        by_cases hg2 : ((masked && maskedCol c0) && !(c0.mask.length == c0.data.length)) = true
        · rw [if_pos hg2]
        · rw [if_neg hg2]
          rw [ih hm]

/- Data-file name facts. -/

theorem dfsAfter_name_default {done : List Column} {p : String × DataFile}
    (hp : p ∈ dfsAfter done) :
    ∃ c ∈ done, colKey c = p.1 ∧ p.2.name = defaultName c := by
  obtain ⟨hu, hform⟩ := mem_dfsAfter hp
  unfold usedKey at hu
  cases hf : done.find? (fun c => colKey c == p.1) with
  | none =>
    rcases List.any_eq_true.mp hu with ⟨c, hc, hpred⟩
    exact absurd hpred (List.find?_eq_none.mp hf c hc)
  | some c =>
    refine ⟨c, List.mem_of_find?_eq_some hf, by simpa using List.find?_some hf, ?_⟩
    rw [hform]
    show keyName p.1 done = defaultName c
    unfold keyName
    rw [hf]

theorem dfsAfter_names_nodup (done : List Column) :
    ((dfsAfter done).map (fun p => p.2.name)).Nodup := by
  have hkeys := (dfsAfter_keys done).1
  have hself : (dfsAfter done).Nodup := List.Nodup.of_map Prod.fst hkeys
  apply List.Nodup.map_on _ hself
  intro p hp q hq hname
  obtain ⟨cp, _, hcpk, hcpn⟩ := dfsAfter_name_default hp
  obtain ⟨cq, _, hcqk, hcqn⟩ := dfsAfter_name_default hq
  have : defaultName cp = defaultName cq := by rw [← hcpn, ← hcqn, hname]
  have hkeq : p.1 = q.1 := by rw [← hcpk, ← hcqk]; exact defaultName_inj this
  exact List.inj_on_of_nodup_map hkeys hp hq hkeq

theorem dfsAfter_name_startsD {done : List Column} {p : String × DataFile}
    (hp : p ∈ dfsAfter done) : p.2.name.data.head? = some 'd' := by
  obtain ⟨c, _, _, hn⟩ := dfsAfter_name_default hp
  rw [hn]
  exact defaultName_head c

/- `setFile` / `removeFile` / `applyOps` lemmas. -/

theorem lookupA_isSome_of_any {α : Type} {fs : List (String × α)} {n : String}
    (h : fs.any (fun p => p.1 == n) = true) : ∃ v, lookupA fs n = some v := by
  induction fs with
  | nil => cases h
  | cons p l ih =>
    simp only [List.any_cons] at h
    by_cases hp : p.1 = n
    · exact ⟨p.2, by simp [lookupA, hp]⟩
    · have hb : (p.1 == n) = false := by simpa using hp
      rw [hb, Bool.false_or] at h
      obtain ⟨v, hv⟩ := ih h
      exact ⟨v, by simp [lookupA, hb, hv]⟩

theorem getFile_setFile_self (fs : Fs) (n : String) (c : FileContent) :
    getFile (setFile fs n c) n = some c := by
  unfold setFile getFile
  split
  · rename_i hany
    obtain ⟨v, hv⟩ := lookupA_isSome_of_any hany
    have hmap : (fs.map (fun p => if p.1 == n then (n, c) else p))
        = fs.map (fun p => if p.1 == n then (p.1, (fun _ => c) p.2) else p) := by
      apply List.map_congr_left
      intro p _
      split
      · rename_i hb
        have : p.1 = n := by simpa using hb
        rw [this]
      · rfl
    rw [hmap, lookupA_map_update_self fs n (fun _ => c), hv]
    rfl
  · rw [lookupA_append]
    rename_i hany
    have : lookupA fs n = none := by
      apply lookupA_eq_none.mpr
      intro p hp
      have := List.any_eq_false.mp (Bool.eq_false_iff.mpr hany) p hp
      simpa using this
    rw [this]
    simp [lookupA]

theorem getFile_setFile_ne (fs : Fs) {n n' : String} (c : FileContent) (h : n' ≠ n) :
    getFile (setFile fs n c) n' = getFile fs n' := by
  unfold setFile getFile
  split
  · have hmap : (fs.map (fun p => if p.1 == n then (n, c) else p))
        = fs.map (fun p => if p.1 == n then (p.1, (fun _ => c) p.2) else p) := by
      apply List.map_congr_left
      intro p _
      split
      · rename_i hb
        have : p.1 = n := by simpa using hb
        rw [this]
      · rfl
    rw [hmap, lookupA_map_update_ne fs n n' (fun _ => c) h]
  · rw [lookupA_append]
    have : lookupA [(n, c)] n' = none := by
      simp only [lookupA]
      rw [if_neg (by simpa using fun he : n = n' => h he.symm)]
    rw [this]
    cases lookupA fs n' <;> rfl

theorem removeFile_id {fs : Fs} {n : String} (h : ∀ q ∈ fs, q.1 ≠ n) :
    removeFile fs n = fs := by
  unfold removeFile
  apply List.filter_eq_self.mpr
  intro q hq
  simpa using h q hq

theorem applyOps_append (d : Option Fs) (l1 l2 : List FsOp) :
    applyOps d (l1 ++ l2) = applyOps (applyOps d l1) l2 := by
  unfold applyOps
  rw [List.foldl_append]

theorem setFile_fresh {fs : Fs} {n : String} (c : FileContent)
    (h : ∀ q ∈ fs, q.1 ≠ n) : setFile fs n c = fs ++ [(n, c)] := by
  unfold setFile
  rw [if_neg]
  simp only [Bool.not_eq_true]
  apply List.any_eq_false.mpr
  intro q hq
  simpa using h q hq

theorem applyOps_creates (l : List (String × FileContent)) : ∀ fs : Fs,
    (l.map Prod.fst).Nodup → (∀ p ∈ l, ∀ q ∈ fs, q.1 ≠ p.1) →
    applyOps (some fs) (l.map (fun p => FsOp.create p.1 p.2)) = some (fs ++ l) := by
  induction l with
  | nil => intro fs _ _; simp [applyOps]
  | cons p l ih =>
    intro fs hnd hdisj
    rw [List.map_cons, show (FsOp.create p.1 p.2 :: l.map (fun p => FsOp.create p.1 p.2))
      = [FsOp.create p.1 p.2] ++ l.map (fun p => FsOp.create p.1 p.2) from rfl,
      applyOps_append]
    have h1 : applyOps (some fs) [FsOp.create p.1 p.2] = some (fs ++ [p]) := by
      show some (setFile fs p.1 p.2) = _
      rw [setFile_fresh _ (hdisj p (List.mem_cons_self p l))]
    have hdisj2 : ∀ p' ∈ l, ∀ q ∈ fs ++ [p], q.1 ≠ p'.1 := by
      intro p' hp' q hq
      rcases List.mem_append.mp hq with hq | hq
      · exact hdisj p' (List.mem_cons_of_mem p hp') q hq
      · have hqp := List.mem_singleton.mp hq
        rw [hqp]
        intro he
        have hfst : p.1 ∈ l.map Prod.fst := List.mem_map.mpr ⟨p', hp', he.symm⟩
        exact (List.nodup_cons.mp (by simpa using hnd)).1 hfst
    rw [h1, ih (fs ++ [p]) (List.nodup_cons.mp (by simpa using hnd)).2 hdisj2]
    rw [List.append_assoc]
    rfl

/- `write` success: the exact operation trace. -/

theorem maskRows_nil (masked : Bool) : maskRows masked [] = 0 := by
  cases masked <;> rfl

theorem write_eq (t : Table) (hok : ∀ c ∈ t.columns, ColOk t.masked c) :
    write t none = Except.ok (traceSpec t [FsOp.mkdir]) := by
  unfold write
  have hplan := plan_eq t.masked t.columns [] hok
  rw [show dfsAfter ([] : List Column) = [] from rfl, maskRows_nil, List.nil_append] at hplan
  rw [hplan]
  dsimp only
  unfold traceSpec manifestSpec maskOpsSpec dataOpsSpec
  simp [List.append_assoc]

theorem write_ok_inv (t : Table) (d : Option Fs) (tr : List FsOp)
    (h : write t d = Except.ok tr) :
    (∀ c ∈ t.columns, ColOk t.masked c) ∧
      (tr = traceSpec t [] ∨ tr = traceSpec t [FsOp.mkdir]) := by
  unfold write at h
  cases hplan : plan t.masked [] 0 t.columns with
  | error e => rw [hplan] at h; cases h
  | ok res =>
    have hok := plan_ok_colOk t.masked t.columns [] 0 res hplan
    refine ⟨hok, ?_⟩
    have heq := plan_eq t.masked t.columns [] hok
    rw [show dfsAfter ([] : List Column) = [] from rfl, maskRows_nil, List.nil_append] at heq
    rw [heq] at h
    cases d with
    | none =>
      right
      dsimp only at h
      have := Except.ok.inj h
      rw [← this]
      unfold traceSpec manifestSpec maskOpsSpec dataOpsSpec
      simp [List.append_assoc]
    | some fs =>
      dsimp only at h
      by_cases hcond : ((getFile fs "bintable.json_").isNone && (getFile fs "bintable.json_").isNone) = true
      · rw [if_pos hcond] at h
        cases h
      · rw [if_neg hcond] at h
        left
        dsimp only at h
        have := Except.ok.inj h
        rw [← this]
        unfold traceSpec manifestSpec maskOpsSpec dataOpsSpec
        simp [List.append_assoc]

theorem applyOps_dataOps (t : Table) (fs : Fs)
    (hq : ∀ q ∈ fs, q.1.data.head? ≠ some 'd') :
    applyOps (some fs) (dataOpsSpec t)
      = some (fs ++ (dfsAfter t.columns).map (fun p => (p.2.name, saveContent p.2))) := by
  have hshape : dataOpsSpec t
      = ((dfsAfter t.columns).map (fun p => (p.2.name, saveContent p.2))).map
          (fun q => FsOp.create q.1 q.2) := by
    unfold dataOpsSpec
    rw [List.map_map]
    rfl
  rw [hshape]
  apply applyOps_creates
  · rw [List.map_map]
    exact dfsAfter_names_nodup t.columns
  · intro p hp q hqf
    rcases List.mem_map.mp hp with ⟨df, hdf, hpe⟩
    intro he
    apply hq q hqf
    rw [he, ← hpe]
    exact dfsAfter_name_startsD hdf

theorem applyOp_rename_commit (man : FileContent) (rest : Fs)
    (hrest1 : ∀ q ∈ rest, q.1 ≠ "bintable.json_")
    (hrest2 : ∀ q ∈ rest, q.1 ≠ "bintable.json") :
    applyOps (some (("bintable.json_", man) :: rest))
        [FsOp.rename "bintable.json_" "bintable.json"]
      = some (rest ++ [("bintable.json", man)]) := by
  show applyOp (some (("bintable.json_", man) :: rest))
      (FsOp.rename "bintable.json_" "bintable.json")
    = some (rest ++ [("bintable.json", man)])
  unfold applyOp
  dsimp only
  rw [show getFile (("bintable.json_", man) :: rest) "bintable.json_" = some man from by
    simp [getFile, lookupA]]
  have hrm : removeFile (("bintable.json_", man) :: rest) "bintable.json_" = rest := by
    unfold removeFile
    rw [List.filter_cons, if_neg (by simp)]
    exact List.filter_eq_self.mpr (fun q hq => by simpa using hrest1 q hq)
  rw [hrm]
  dsimp only
  rw [setFile_fresh man hrest2]

theorem applyOps_traceSpec (t : Table) :
    applyOps none (traceSpec t [FsOp.mkdir]) = some (filesSpec t) := by
  unfold traceSpec filesSpec
  rw [applyOps_append, applyOps_append, applyOps_append, applyOps_append]
  rw [show applyOps none [FsOp.mkdir] = some [] from rfl]
  rw [show applyOps (some ([] : Fs))
      [FsOp.create "bintable.json_" (FileContent.manifest (manifestSpec t))]
      = some [("bintable.json_", FileContent.manifest (manifestSpec t))] from rfl]
  have hPn : ∀ q ∈ (dfsAfter t.columns).map (fun p => (p.2.name, saveContent p.2)),
      q.1.data.head? = some 'd' := by
    intro q hq
    rcases List.mem_map.mp hq with ⟨df, hdf, hpe⟩
    rw [← hpe]
    exact dfsAfter_name_startsD hdf
  have hb : ("bintable.json_" : String).data.head? ≠ some 'd' := by decide
  have hmnd : ("mask.npy" : String).data.head? ≠ some 'd' := by decide
  have htc : ("bintable.json_" : String) ≠ "bintable.json" := by decide
  have hmt : ("mask.npy" : String) ≠ "bintable.json_" := by decide
  have hmc : ("mask.npy" : String) ≠ "bintable.json" := by decide
  by_cases hE : (maskChunks t.masked t.columns).isEmpty = true
  · rw [show maskOpsSpec t = [] from by unfold maskOpsSpec; rw [if_pos hE]]
    rw [show applyOps (some [("bintable.json_", FileContent.manifest (manifestSpec t))])
        ([] : List FsOp) = some [("bintable.json_", FileContent.manifest (manifestSpec t))] from rfl]
    rw [applyOps_dataOps t _ (by
      intro q hqf
      rcases List.mem_singleton.mp hqf with he
      rw [he]
      exact hb)]
    rw [show ([("bintable.json_", FileContent.manifest (manifestSpec t))]
        ++ (dfsAfter t.columns).map (fun p => (p.2.name, saveContent p.2)))
      = ("bintable.json_", FileContent.manifest (manifestSpec t))
        :: (dfsAfter t.columns).map (fun p => (p.2.name, saveContent p.2)) from rfl]
    rw [applyOp_rename_commit _ _
      (fun q hq => ne_of_head_ne (by rw [hPn q hq]; decide))
      (fun q hq => ne_of_head_ne (by rw [hPn q hq]; decide))]
    rw [if_pos hE]
    simp only [List.nil_append]
  · rw [show maskOpsSpec t = [FsOp.create "mask.npy"
        (FileContent.npyBools (maskChunks t.masked t.columns).flatten)] from by
      unfold maskOpsSpec; rw [if_neg hE]]
    rw [show applyOps (some [("bintable.json_", FileContent.manifest (manifestSpec t))])
        [FsOp.create "mask.npy" (FileContent.npyBools (maskChunks t.masked t.columns).flatten)]
      = some [("bintable.json_", FileContent.manifest (manifestSpec t)),
              ("mask.npy", FileContent.npyBools (maskChunks t.masked t.columns).flatten)] from by
      show some (setFile _ _ _) = _
      rw [setFile_fresh _ (by
        intro q hq
        rcases List.mem_singleton.mp hq with he
        rw [he]
        exact hmt.symm)]
      rfl]
    rw [applyOps_dataOps t _ (by
      intro q hqf
      rcases List.mem_cons.mp hqf with he | hq2
      · rw [he]; exact hb
      · rcases List.mem_singleton.mp hq2 with he
        rw [he]
        exact hmnd)]
    rw [show ([("bintable.json_", FileContent.manifest (manifestSpec t)),
          ("mask.npy", FileContent.npyBools (maskChunks t.masked t.columns).flatten)]
        ++ (dfsAfter t.columns).map (fun p => (p.2.name, saveContent p.2)))
      = ("bintable.json_", FileContent.manifest (manifestSpec t))
        :: (("mask.npy", FileContent.npyBools (maskChunks t.masked t.columns).flatten)
          :: (dfsAfter t.columns).map (fun p => (p.2.name, saveContent p.2))) from rfl]
    rw [applyOp_rename_commit _ _
      (by
        intro q hq
        rcases List.mem_cons.mp hq with he | hq2
        · rw [he]; exact hmt
        · exact ne_of_head_ne (by rw [hPn q hq2]; decide))
      (by
        intro q hq
        rcases List.mem_cons.mp hq with he | hq2
        · rw [he]; exact hmc
        · exact ne_of_head_ne (by rw [hPn q hq2]; decide))]
    rw [if_neg hE]
    simp only [List.cons_append, List.nil_append]

theorem lookupA_maskPart_ne (t : Table) {n : String} (h : n ≠ "mask.npy") :
    lookupA (if (maskChunks t.masked t.columns).isEmpty then ([] : Fs)
      else [("mask.npy", FileContent.npyBools (maskChunks t.masked t.columns).flatten)]) n
      = none := by
  split
  · rfl
  · simp only [lookupA]
    rw [if_neg (by simpa using fun he : "mask.npy" = n => h he.symm)]

theorem lookupA_dataPart_ne (t : Table) {n : String} (h : n.data.head? ≠ some 'd') :
    lookupA ((dfsAfter t.columns).map (fun p => (p.2.name, saveContent p.2))) n = none := by
  apply lookupA_eq_none.mpr
  intro q hq
  rcases List.mem_map.mp hq with ⟨df, hdf, hpe⟩
  intro he
  apply h
  rw [← he, ← hpe]
  exact dfsAfter_name_startsD hdf

theorem getFile_filesSpec_committed (t : Table) :
    getFile (filesSpec t) "bintable.json" = some (FileContent.manifest (manifestSpec t)) := by
  unfold filesSpec getFile
  rw [lookupA_append, lookupA_append]
  rw [lookupA_maskPart_ne t (by decide), lookupA_dataPart_ne t (by decide)]
  rfl

theorem getFile_filesSpec_mask (t : Table)
    (h : (maskChunks t.masked t.columns).isEmpty = false) :
    getFile (filesSpec t) "mask.npy"
      = some (FileContent.npyBools (maskChunks t.masked t.columns).flatten) := by
  unfold filesSpec getFile
  rw [lookupA_append, lookupA_append]
  rw [show (if (maskChunks t.masked t.columns).isEmpty then ([] : Fs)
      else [("mask.npy", FileContent.npyBools (maskChunks t.masked t.columns).flatten)])
    = [("mask.npy", FileContent.npyBools (maskChunks t.masked t.columns).flatten)] from by
    rw [if_neg (by simp [h])]]
  simp [lookupA]

theorem getFile_filesSpec_data (t : Table) {p : String × DataFile}
    (hp : p ∈ dfsAfter t.columns) :
    getFile (filesSpec t) p.2.name = some (saveContent p.2) := by
  unfold filesSpec getFile
  rw [lookupA_append, lookupA_append]
  rw [lookupA_maskPart_ne t (by
    intro he
    have := dfsAfter_name_startsD hp
    rw [he] at this
    exact absurd this (by decide))]
  rw [show lookupA ((dfsAfter t.columns).map (fun p => (p.2.name, saveContent p.2))) p.2.name
      = some (saveContent p.2) from by
    apply lookupA_of_mem_nodup
    · rw [List.map_map]
      exact dfsAfter_names_nodup t.columns
    · exact List.mem_map.mpr ⟨p, hp, rfl⟩]
  rfl

/- The reader's cache is transparent: every column is processed exactly as
a cache-free open would process it. -/

theorem loadColFile_stateless (fs : Fs) (st : RState) (file : String) (hwf : CacheWF fs st) :
    (loadColFile fs st file).1 = loadFromFs fs file ∧
      CacheWF fs (loadColFile fs st file).2 ∧
      (loadColFile fs st file).2.maskedbacking = st.maskedbacking := by
  unfold loadColFile
  cases hc : lookupA st.backing file with
  | some vs =>
    refine ⟨?_, hwf, rfl⟩
    exact (hwf.1 (file, vs) (lookupA_mem hc)).symm
  | none =>
    cases hl : loadFromFs fs file with
    | error e => exact ⟨rfl, hwf, rfl⟩
    | ok vs =>
      refine ⟨rfl, ⟨?_, hwf.2⟩, rfl⟩
      intro p hp
      rcases List.mem_append.mp hp with hp | hp
      · exact hwf.1 p hp
      · have := List.mem_singleton.mp hp
        rw [this]
        exact hl

theorem processColumn_stateless (fs : Fs) (st : RState) (e : ColumnEntry) (hwf : CacheWF fs st) :
    (processColumn fs st e).1 = readColPure fs e ∧ CacheWF fs (processColumn fs st e).2 := by
  obtain ⟨hl1, hl2, hl3⟩ := loadColFile_stateless fs st e.file hwf
  unfold processColumn readColPure
  cases hlc : loadColFile fs st e.file with
  | mk r st1 =>
    rw [hlc] at hl1 hl2 hl3
    cases r with
    | error err =>
      rw [← hl1]
      exact ⟨rfl, hl2⟩
    | ok vs =>
      rw [← hl1]
      dsimp only
      cases e.maskoffset with
      | none => exact ⟨rfl, hl2⟩
      | some mo =>
        cases hmb : st1.maskedbacking with
        | some bs =>
          rw [hl2.2 bs hmb]
          exact ⟨rfl, hl2⟩
        | none =>
          cases hlm : loadMask fs with
          | error err => exact ⟨rfl, hl2⟩
          | ok bs =>
            refine ⟨rfl, hl2.1, ?_⟩
            intro bs' hbs'
            have : bs' = bs := by
              simp only at hbs'
              exact (Option.some.inj hbs').symm
            rw [this]
            exact hlm

theorem readLoop_stateless (fs : Fs) (es : List ColumnEntry) : ∀ st : RState, CacheWF fs st →
    (readLoop fs st es).1 = mapE (readColPure fs) es ∧ CacheWF fs (readLoop fs st es).2 := by
  induction es with
  | nil => intro st hwf; exact ⟨rfl, hwf⟩
  | cons e es ih =>
    intro st hwf
    obtain ⟨h1, h2⟩ := processColumn_stateless fs st e hwf
    cases hp : processColumn fs st e with
    | mk r st1 =>
      rw [hp] at h1 h2
      dsimp only at h1 h2
      unfold readLoop mapE
      rw [hp, ← h1]
      cases r with
      | error err =>
        dsimp only
        exact ⟨rfl, h2⟩
      | ok rc =>
        dsimp only
        obtain ⟨ih1, ih2⟩ := ih st1 h2
        cases hrl : readLoop fs st1 es with
        | mk r2 st2 =>
          rw [hrl] at ih1 ih2
          dsimp only at ih1 ih2
          rw [← ih1]
          cases r2 with
          | error err =>
            dsimp only
            exact ⟨rfl, ih2⟩
          | ok rcs =>
            dsimp only
            exact ⟨rfl, ih2⟩

/- Reading back one written column. -/

theorem chunks_flatten_len (k : String) (cs : List Column) :
    (chunksOfKey k cs).flatten.length = rowsOfKey k cs := by
  unfold chunksOfKey rowsOfKey
  rw [List.length_flatten, List.map_map]
  rfl

theorem maskChunks_flatten_len (cs : List Column)
    (h : ∀ c ∈ cs, maskedCol c = true → c.mask.length = c.data.length) :
    (maskChunks true cs).flatten.length = maskRows true cs := by
  unfold maskChunks maskRows
  simp only [if_true]
  rw [List.length_flatten, List.map_map]
  congr 1
  apply List.map_congr_left
  intro c hc
  exact h c (List.mem_of_mem_filter hc) (List.of_mem_filter hc)

theorem loadFromFs_filesSpec (t : Table) {p : String × DataFile} (hp : p ∈ dfsAfter t.columns)
    (hslash : strContains p.2.name '/' = false) :
    loadFromFs (filesSpec t) p.2.name = Except.ok p.2.datas.flatten := by
  obtain ⟨c', hc'mem, hc'key, hc'name⟩ := dfsAfter_name_default hp
  have hopen := getFile_filesSpec_data t hp
  unfold loadFromFs
  rw [hslash]
  simp only [Bool.false_eq_true, if_false]
  by_cases htext : isText c' = true
  · obtain ⟨hnpy, hjson⟩ := defaultName_text_json htext
    rw [hc'name, hnpy]
    simp only [Bool.false_eq_true, if_false]
    rw [hjson]
    simp only [if_true]
    rw [hc'name] at hopen
    rw [hopen]
    have hsave : saveContent p.2 = FileContent.jsonData p.2.datas.flatten := by
      unfold saveContent
      rw [hc'name, hjson]
      simp only [if_true]
    rw [hsave]
  · have htf : isText c' = false := Bool.eq_false_iff.mpr htext
    have hnpy := defaultName_npy htf
    rw [hc'name, hnpy]
    simp only [if_true]
    rw [hc'name] at hopen
    rw [hopen]
    have hsave : saveContent p.2 = FileContent.npyData p.2.datas.flatten := by
      unfold saveContent
      rw [hc'name, defaultName_npy_not_json htf]
      simp only [Bool.false_eq_true, if_false]
    rw [hsave]

theorem readColPure_write (t : Table) (hok : ∀ c ∈ t.columns, ColOk t.masked c)
    (hwf : TableWF t) (done : List Column) (c : Column) (rest : List Column)
    (hsplit : t.columns = done ++ c :: rest) :
    readColPure (filesSpec t) (mkEntry t.masked done c)
      = Except.ok (expectedCol t.masked c) := by
  have hcmem : c ∈ t.columns := by
    rw [hsplit]
    exact List.mem_append.mpr (Or.inr (List.mem_cons_self c rest))
  have hsplit2 : t.columns = (done ++ [c]) ++ rest := by
    rw [hsplit, List.append_assoc]
    rfl
  have husedDC : usedKey (colKey c) (done ++ [c]) = true := by
    rw [usedKey_append, usedKey_single]
    simp
  have hfile : (mkEntry t.masked done c).file = keyName (colKey c) t.columns := by
    show keyName (colKey c) (done ++ [c]) = _
    rw [hsplit2, keyName_of_used _ _ _ husedDC]
  have husedCols : usedKey (colKey c) t.columns = true := by
    rw [hsplit2, usedKey_append, husedDC]
    rfl
  have hdf := getDf_dfsAfter t.columns (colKey c)
  rw [if_pos husedCols] at hdf
  unfold getDf at hdf
  have hdfmem : (colKey c,
      ({ name := keyName (colKey c) t.columns
       , datas := chunksOfKey (colKey c) t.columns
       , length := rowsOfKey (colKey c) t.columns } : DataFile)) ∈ dfsAfter t.columns :=
    lookupA_mem hdf
  obtain ⟨c', hc'mem, hc'key, hc'name⟩ := dfsAfter_name_default hdfmem
  dsimp only at hc'name
  have hslash : strContains (keyName (colKey c) t.columns) '/' = false := by
    rw [hc'name]
    exact defaultName_no_slash (hwf c' hc'mem).2
  have hload := loadFromFs_filesSpec t hdfmem (by dsimp only; exact hslash)
  dsimp only at hload
  have hchunks : (chunksOfKey (colKey c) t.columns).flatten
      = (chunksOfKey (colKey c) done).flatten
        ++ (c.data ++ (chunksOfKey (colKey c) rest).flatten) := by
    rw [hsplit, show (c :: rest) = [c] ++ rest from rfl, chunksOfKey_append, chunksOfKey_append,
      chunksOfKey_single, if_pos (by simp : (colKey c == colKey c) = true)]
    simp [List.flatten_append]
  have hslice : (((chunksOfKey (colKey c) t.columns).flatten.drop
        (rowsOfKey (colKey c) done)).take c.data.length) = c.data := by
    rw [hchunks, List.drop_left' (chunks_flatten_len (colKey c) done),
      List.take_left' rfl]
  unfold readColPure
  rw [hfile, hload]
  dsimp only
  unfold mkEntry expectedCol
  dsimp only
  by_cases hM : (t.masked && maskedCol c) = true
  · rw [if_pos hM]
    obtain ⟨hmk, hmc⟩ := Bool.and_eq_true_iff.mp hM
    have hclen : c.mask.length = c.data.length := ((hok c hcmem).2) hmk hmc
    have hmne : (maskChunks t.masked t.columns).isEmpty = false := by
      rw [hmk, hsplit, show (c :: rest) = [c] ++ rest from rfl, maskChunks_append,
        maskChunks_append, maskChunks_single,
        show (true && maskedCol c) = true from by rw [hmc]; rfl]
      simp only [if_true]
      apply Bool.eq_false_iff.mpr
      intro hE
      rw [List.isEmpty_iff] at hE
      rcases List.append_eq_nil.mp hE with ⟨_, h2⟩
      rcases List.append_eq_nil.mp h2 with ⟨h3, _⟩
      cases h3
    have hlm : loadMask (filesSpec t)
        = Except.ok (maskChunks t.masked t.columns).flatten := by
      unfold loadMask
      rw [getFile_filesSpec_mask t hmne]
    rw [hlm]
    dsimp only
    have hmchunks : (maskChunks t.masked t.columns).flatten
        = (maskChunks true done).flatten
          ++ (c.mask ++ (maskChunks true rest).flatten) := by
      rw [hmk, hsplit, show (c :: rest) = [c] ++ rest from rfl, maskChunks_append,
        maskChunks_append, maskChunks_single,
        show (true && maskedCol c) = true from by rw [hmc]; rfl]
      simp [List.flatten_append]
    have hmlen : (maskChunks true done).flatten.length = maskRows t.masked done := by
      rw [hmk]
      apply maskChunks_flatten_len
      intro c0 hc0 hmc0
      have hc0mem : c0 ∈ t.columns := by
        rw [hsplit]
        exact List.mem_append.mpr (Or.inl hc0)
      exact ((hok c0 hc0mem).2) hmk hmc0
    have hmslice : (((maskChunks t.masked t.columns).flatten.drop
          (maskRows t.masked done)).take c.data.length) = c.mask := by
      rw [hmchunks, List.drop_left' hmlen, List.take_left' hclen]
    rw [hslice, hmslice, hmk]
    rfl
  · rw [if_neg hM]
    dsimp only
    rw [hslice]
    cases hmk : t.masked with
    | false => rfl
    | true =>
      have hmc : maskedCol c = false := by
        rw [hmk] at hM
        cases hmcb : maskedCol c
        · rfl
        · rw [hmcb] at hM
          exact absurd rfl hM
      have hrepl : c.mask = List.replicate c.data.length false := by
        apply List.eq_replicate_iff.mpr
        refine ⟨(hwf c hcmem).1, ?_⟩
        intro b hb
        have := List.any_eq_false.mp hmc b hb
        cases b
        · rfl
        · exact absurd rfl this
      rw [hrepl]
      rfl

theorem mapE_entriesSpec (t : Table) (hok : ∀ c ∈ t.columns, ColOk t.masked c)
    (hwf : TableWF t) :
    ∀ rest done : List Column, t.columns = done ++ rest →
    mapE (readColPure (filesSpec t)) (entriesSpec t.masked done rest)
      = Except.ok (rest.map (expectedCol t.masked)) := by
  intro rest
  induction rest with
  | nil => intro done _; rfl
  | cons c cs ih =>
    intro done h
    unfold entriesSpec mapE
    rw [readColPure_write t hok hwf done c cs h]
    rw [ih (done ++ [c]) (by rw [h, List.append_assoc]; rfl)]
    rfl

/-- C1: reading back the dataset produced by `write(T, dir)` into a fresh
directory yields the same column names in the same order, the same
per-column values, the same masks, the same units, and the same metadata
as the written table. -/
theorem c1_round_trip (t : Table) (hwf : TableWF t) (hw : (write t none).isOk = true) :
    (read (writeFs t none) none).1
      = Except.ok (ReadResult.mk t.meta t.masked (t.columns.map (expectedCol t.masked))) := by
  cases hwr : write t none with
  | error e => rw [hwr] at hw; cases hw
  | ok tr =>
    obtain ⟨hok, _⟩ := write_ok_inv t none tr hwr
    have hweq := write_eq t hok
    rw [hwr] at hweq
    have htr : tr = traceSpec t [FsOp.mkdir] := Except.ok.inj hweq
    unfold writeFs
    rw [hwr]
    dsimp only
    rw [htr, applyOps_traceSpec]
    unfold BinTable.read
    dsimp only
    rw [getFile_filesSpec_committed]
    dsimp only
    have hini : CacheWF (filesSpec t) { backing := [], maskedbacking := none, opened := [] } := by
      constructor
      · intro p hp; cases hp
      · intro bs h; cases h
    rw [show requestedEntries (manifestSpec t) none = Except.ok (manifestSpec t).columns from rfl]
    dsimp only
    obtain ⟨hl1, _⟩ := readLoop_stateless (filesSpec t) (manifestSpec t).columns _ hini
    cases hrl : readLoop (filesSpec t) { backing := [], maskedbacking := none, opened := [] }
        (manifestSpec t).columns with
    | mk r st =>
      rw [hrl] at hl1
      dsimp only at hl1
      have hr : r = Except.ok (t.columns.map (expectedCol t.masked)) := by
        rw [hl1]
        show mapE (readColPure (filesSpec t)) (entriesSpec t.masked [] t.columns) = _
        exact mapE_entriesSpec t hok hwf t.columns [] rfl
      rw [hr]
      rfl

/-- Witness for C1 at the concrete three-column example table. -/
theorem c1_round_trip_witness :
    TableWF exT ∧ (write exT none).isOk = true ∧
      (read (writeFs exT none) none).1
        = Except.ok (ReadResult.mk exT.meta exT.masked (exT.columns.map (expectedCol exT.masked))) :=
  ⟨by decide, by decide, c1_round_trip exT (by decide) (by decide)⟩

/-- C4 counterexample: a big-endian marker `>` in the dtype string does not
trigger the write-side assertion; `write` succeeds, refuting the claim for
"non-native byte order, whether little- or big-endian". -/
theorem c4_endianness_counterexample :
    write exBig none ≠ Except.error WriteError.assertionError ∧ (write exBig none).isOk = true := by
  exact ⟨by decide, by decide⟩

/-- C4 (amended): for every table containing a non-text column whose dtype
string contains the little-endian marker `<`, `write` fails with an
assertion error and produces no file in the target directory. -/
theorem c4_little_endian_assert (t : Table) (d : Option Fs) (c : Column)
    (hc : c ∈ t.columns) (hnt : isText c = false)
    (hlt : strContains c.dtypeStr '<' = true) :
    write t d = Except.error WriteError.assertionError ∧ writeFs t d = d := by
  have hplan := plan_bad t.masked t.columns c hc hnt hlt [] 0
  have hw : write t d = Except.error WriteError.assertionError := by
    unfold write
    rw [hplan]
  refine ⟨hw, ?_⟩
  unfold writeFs
  rw [hw]

/-- Witness for the amended C4 at a concrete `<i4` column. -/
theorem c4_little_endian_assert_witness :
    Column.mk "a" 'i' "<i4" [Val.int 1] [false] none ∈ exLt.columns
    ∧ isText (Column.mk "a" 'i' "<i4" [Val.int 1] [false] none) = false
    ∧ strContains "<i4" '<' = true
    ∧ write exLt none = Except.error WriteError.assertionError
    ∧ writeFs exLt none = none := by
  have h := c4_little_endian_assert exLt none
    (Column.mk "a" 'i' "<i4" [Val.int 1] [false] none)
    (by decide) (by decide) (by decide)
  exact ⟨by decide, by decide, by decide, h.1, h.2⟩

/-- C7: writing into an existing path that does not contain the temporary
manifest name fails with an already-exists error and leaves the directory
untouched; writing into a non-existent path creates it and succeeds. -/
theorem c7_existing_dir (t : Table) (fs : Fs)
    (hok : ∀ c ∈ t.columns, ColOk t.masked c) :
    (getFile fs "bintable.json_" = none →
      write t (some fs) = Except.error WriteError.fileExistsError
        ∧ writeFs t (some fs) = some fs)
    ∧ ((write t none).isOk = true ∧ (writeFs t none).isSome = true) := by
  constructor
  · intro habs
    have hw : write t (some fs) = Except.error WriteError.fileExistsError := by
      unfold write
      have hplan := plan_eq t.masked t.columns [] hok
      rw [show dfsAfter ([] : List Column) = [] from rfl, maskRows_nil, List.nil_append] at hplan
      rw [hplan]
      dsimp only
      rw [if_pos (by rw [habs]; rfl)]
    refine ⟨hw, ?_⟩
    unfold writeFs
    rw [hw]
  · have hweq := write_eq t hok
    constructor
    · rw [hweq]
      rfl
    · unfold writeFs
      rw [hweq]
      dsimp only
      rw [applyOps_traceSpec]
      rfl

/-- Witness for C7: an existing directory holding an unrelated file. -/
theorem c7_existing_dir_witness :
    (∀ c ∈ exT.columns, ColOk exT.masked c)
    ∧ getFile [("x", FileContent.npyData [])] "bintable.json_" = none
    ∧ write exT (some [("x", FileContent.npyData [])]) = Except.error WriteError.fileExistsError
    ∧ writeFs exT (some [("x", FileContent.npyData [])]) = some [("x", FileContent.npyData [])]
    ∧ (write exT none).isOk = true := by
  have h := c7_existing_dir exT [("x", FileContent.npyData [])] (by decide)
  exact ⟨by decide, by decide, (h.1 (by decide)).1, (h.1 (by decide)).2, h.2.1⟩

/- Prefix preservation for C2. -/

theorem preserves_absent (n : String) : ∀ (ops : List FsOp) (d : Option Fs),
    (∀ op ∈ ops, op = FsOp.mkdir ∨ ∃ nm c, op = FsOp.create nm c ∧ nm ≠ n) →
    fileAt d n = none → fileAt (applyOps d ops) n = none := by
  intro ops
  induction ops with
  | nil => intro d _ hd; exact hd
  | cons op ops ih =>
    intro d hops hd
    have hstep : fileAt (applyOp d op) n = none := by
      rcases hops op (List.mem_cons_self op ops) with rfl | ⟨nm, c, rfl, hne⟩
      · cases d with
        | none => rfl
        | some fs => exact hd
      · cases d with
        | none => rfl
        | some fs =>
          show getFile (setFile fs nm c) n = none
          rw [getFile_setFile_ne fs c (fun he => hne he.symm)]
          exact hd
    exact ih (applyOp d op) (fun op' h' => hops op' (List.mem_cons_of_mem op h')) hstep

theorem traceSpec_body_ok (t : Table) (pre : List FsOp) (hpre : pre = [] ∨ pre = [FsOp.mkdir]) :
    ∀ op ∈ ((pre ++ [FsOp.create "bintable.json_" (FileContent.manifest (manifestSpec t))])
        ++ maskOpsSpec t) ++ dataOpsSpec t,
      op = FsOp.mkdir ∨ ∃ nm c, op = FsOp.create nm c ∧ nm ≠ "bintable.json" := by
  intro op hop
  rcases List.mem_append.mp hop with hop | hop
  · rcases List.mem_append.mp hop with hop | hop
    · rcases List.mem_append.mp hop with hop | hop
      · rcases hpre with rfl | rfl
        · cases hop
        · rcases List.mem_singleton.mp hop with rfl
          exact Or.inl rfl
      · rcases List.mem_singleton.mp hop with rfl
        exact Or.inr ⟨_, _, rfl, by decide⟩
    · unfold maskOpsSpec at hop
      split at hop
      · cases hop
      · rcases List.mem_singleton.mp hop with rfl
        exact Or.inr ⟨_, _, rfl, by decide⟩
  · unfold dataOpsSpec at hop
    rcases List.mem_map.mp hop with ⟨p, hp, rfl⟩
    refine Or.inr ⟨_, _, rfl, ?_⟩
    exact ne_of_head_ne (by rw [dfsAfter_name_startsD hp]; decide)

/-- C2: the manifest is created first under its temporary name, the commit
is the final rename, and any interruption (a proper prefix of the trace)
leaves no file at the committed manifest name. -/
theorem c2_commit_atomicity (t : Table) (d : Option Fs) (p q : List FsOp)
    (hd : fileAt d "bintable.json" = none)
    (hw : write t d = Except.ok (p ++ q)) (hq : q ≠ []) :
    fileAt (applyOps d p) "bintable.json" = none
    ∧ (p ++ q).getLast? = some (FsOp.rename "bintable.json_" "bintable.json")
    ∧ (List.filter isCreateOp (p ++ q)).head?
        = some (FsOp.create "bintable.json_" (FileContent.manifest (manifestSpec t))) := by
  obtain ⟨_, htr⟩ := write_ok_inv t d (p ++ q) hw
  have hpre : ∃ pre : List FsOp, (pre = [] ∨ pre = [FsOp.mkdir]) ∧ p ++ q = traceSpec t pre := by
    rcases htr with h | h
    · exact ⟨[], Or.inl rfl, h⟩
    · exact ⟨[FsOp.mkdir], Or.inr rfl, h⟩
  obtain ⟨pre, hpre01, htr2⟩ := hpre
  unfold traceSpec at htr2
  refine ⟨?_, ?_, ?_⟩
  · -- p is a prefix of the body (everything before the final rename)
    have hsplit : ∃ s : List FsOp,
        ((pre ++ [FsOp.create "bintable.json_" (FileContent.manifest (manifestSpec t))])
          ++ maskOpsSpec t) ++ dataOpsSpec t = p ++ s := by
      rcases List.append_eq_append_iff.mp htr2.symm with ⟨a, ha1, ha2⟩ | ⟨c', hc1, _⟩
      · have ha : a = [] := by
          cases a with
          | nil => rfl
          | cons x xs =>
            exfalso
            have h2 := (List.cons.inj ha2).2
            rcases List.append_eq_nil.mp h2.symm with ⟨_, hq0⟩
            exact hq hq0
        refine ⟨[], ?_⟩
        rw [ha1, ha, List.append_nil, List.append_nil]
      · exact ⟨c', hc1⟩
    obtain ⟨s, hs⟩ := hsplit
    apply preserves_absent "bintable.json" p
    · intro op hop
      exact traceSpec_body_ok t pre hpre01 op (by rw [hs]; exact List.mem_append_left s hop)
    · exact hd
  · rw [htr2, List.getLast?_concat]
  · rw [htr2]
    rw [List.filter_append, List.filter_append, List.filter_append, List.filter_append]
    have h1 : List.filter isCreateOp pre = [] := by
      rcases hpre01 with rfl | rfl <;> rfl
    have h2 : List.filter isCreateOp
        [FsOp.create "bintable.json_" (FileContent.manifest (manifestSpec t))]
        = [FsOp.create "bintable.json_" (FileContent.manifest (manifestSpec t))] := rfl
    rw [h1, h2]
    rfl

/-- Witness for C2: the zero-column table, interrupted before the rename. -/
theorem c2_commit_atomicity_witness :
    fileAt none "bintable.json" = none
    ∧ write exT0 none = Except.ok
        ([FsOp.mkdir, FsOp.create "bintable.json_" (FileContent.manifest (Manifest.mk "" false []))]
          ++ [FsOp.rename "bintable.json_" "bintable.json"])
    ∧ ([FsOp.rename "bintable.json_" "bintable.json"] : List FsOp) ≠ []
    ∧ (fileAt (applyOps none
        [FsOp.mkdir, FsOp.create "bintable.json_" (FileContent.manifest (Manifest.mk "" false []))])
        "bintable.json" = none) := by
  have h := c2_commit_atomicity exT0 none
    [FsOp.mkdir, FsOp.create "bintable.json_" (FileContent.manifest (Manifest.mk "" false []))]
    [FsOp.rename "bintable.json_" "bintable.json"]
    rfl (by decide) (by decide)
  exact ⟨rfl, by decide, by decide, h.1⟩

theorem resolveSubset_missing (entries : List ColumnEntry) (n : String)
    (habs : ∀ e ∈ entries, e.name ≠ n) :
    ∀ S : List String, n ∈ S → resolveSubset entries S = Except.error ReadError.keyError := by
  intro S
  induction S with
  | nil => intro h; cases h
  | cons n0 ns ih =>
    intro hn
    unfold resolveSubset
    cases hcd : coldictFind entries n0 with
    | none => rfl
    | some e =>
      have hmem : e ∈ entries := by
        unfold coldictFind at hcd
        exact List.mem_reverse.mp (List.mem_of_find?_eq_some hcd)
      have hname : e.name = n0 := by
        unfold coldictFind at hcd
        simpa using List.find?_some hcd
      have hne : n ∈ ns := by
        rcases List.mem_cons.mp hn with rfl | h
        · exact absurd hname (habs e hmem)
        · exact h
      rw [ih hne]

/-- C9: a selective read whose requested list contains a name absent from
the manifest fails with a lookup (key) error before opening any backing
file, returning no partial table. -/
theorem c9_lookup_failure (d : Option Fs) (m : Manifest) (S : List String) (n : String)
    (hman : fileAt d "bintable.json" = some (FileContent.manifest m))
    (hn : n ∈ S) (habs : ∀ e ∈ m.columns, e.name ≠ n) :
    (read d (some S)).1 = Except.error ReadError.keyError ∧ (read d (some S)).2 = [] := by
  have hres := resolveSubset_missing m.columns n habs S hn
  cases d with
  | none => cases hman
  | some fs =>
    unfold BinTable.read
    dsimp only
    rw [show getFile fs "bintable.json" = some (FileContent.manifest m) from hman]
    dsimp only
    rw [show requestedEntries m (some S) = resolveSubset m.columns S from rfl, hres]
    exact ⟨rfl, rfl⟩

/-- Witness for C9: requesting a missing column name from the example
dataset. -/
theorem c9_lookup_failure_witness :
    fileAt (writeFs exT none) "bintable.json"
      = some (FileContent.manifest (manifestSpec exT))
    ∧ ("nope" : String) ∈ ["id", "nope"]
    ∧ (∀ e ∈ (manifestSpec exT).columns, e.name ≠ "nope")
    ∧ (read (writeFs exT none) (some ["id", "nope"])).1 = Except.error ReadError.keyError
    ∧ (read (writeFs exT none) (some ["id", "nope"])).2 = [] := by
  have h := c9_lookup_failure (writeFs exT none) (manifestSpec exT) ["id", "nope"] "nope"
    (by decide) (by decide) (by decide)
  exact ⟨by decide, by decide, by decide, h.1, h.2⟩

/- Every opened backing file has a bare name (C10). -/

theorem loadFromFs_ok_no_slash {fs : Fs} {file : String} {vs : List Val}
    (h : loadFromFs fs file = Except.ok vs) : strContains file '/' = false := by
  by_cases hc : strContains file '/' = true
  · unfold loadFromFs at h
    rw [if_pos hc] at h
    cases h
  · exact Bool.eq_false_iff.mpr hc

theorem openedOk_loadColFile (fs : Fs) (st : RState) (file : String) (h : OpenedOk st) :
    OpenedOk (loadColFile fs st file).2 := by
  unfold loadColFile
  cases hc : lookupA st.backing file with
  | some vs => exact h
  | none =>
    cases hl : loadFromFs fs file with
    | error e => exact h
    | ok vs =>
      intro f hf
      dsimp only at hf
      rcases List.mem_append.mp hf with hf | hf
      · exact h f hf
      · have he := List.mem_singleton.mp hf
        rw [he]
        exact loadFromFs_ok_no_slash hl

theorem openedOk_processColumn (fs : Fs) (st : RState) (e : ColumnEntry) (h : OpenedOk st) :
    OpenedOk (processColumn fs st e).2 := by
  have h1 := openedOk_loadColFile fs st e.file h
  unfold processColumn
  cases hlc : loadColFile fs st e.file with
  | mk r st1 =>
    rw [hlc] at h1
    cases r with
    | error err => exact h1
    | ok vs =>
      dsimp only
      cases e.maskoffset with
      | none => exact h1
      | some mo =>
        cases st1.maskedbacking with
        | some bs => exact h1
        | none =>
          cases loadMask fs with
          | error err => exact h1
          | ok bs =>
            intro f hf
            dsimp only at hf
            rcases List.mem_append.mp hf with hf | hf
            · exact h1 f hf
            · have he := List.mem_singleton.mp hf
              rw [he]
              decide

theorem openedOk_readLoop (fs : Fs) : ∀ (es : List ColumnEntry) (st : RState),
    OpenedOk st → OpenedOk (readLoop fs st es).2 := by
  intro es
  induction es with
  | nil => intro st h; exact h
  | cons e es ih =>
    intro st h
    have h1 := openedOk_processColumn fs st e h
    unfold readLoop
    cases hp : processColumn fs st e with
    | mk r st1 =>
      rw [hp] at h1
      cases r with
      | error err => exact h1
      | ok rc =>
        dsimp only
        have h2 := ih st1 h1
        cases hrl : readLoop fs st1 es with
        | mk r2 st2 =>
          rw [hrl] at h2
          cases r2 with
          | error err => exact h2
          | ok rcs => exact h2

/-- C10: every backing file the reader opens is addressed by a bare
filename (no `/`); a manifest entry whose `file` contains `/` makes the
reader fail with an assertion error before opening that file, leaving the
call state unchanged. -/
theorem c10_bare_filenames (d : Option Fs) (oc : Option (List String)) (f : String)
    (fs : Fs) (st : RState) (e : ColumnEntry) :
    (f ∈ (read d oc).2 → strContains f '/' = false)
    ∧ (strContains e.file '/' = true → lookupA st.backing e.file = none →
        (processColumn fs st e).1 = Except.error ReadError.assertionError
          ∧ (processColumn fs st e).2 = st) := by
  constructor
  · intro hf
    revert hf
    unfold BinTable.read
    cases d with
    | none => intro hf; cases hf
    | some fs' =>
      dsimp only
      cases getFile fs' "bintable.json" with
      | none => intro hf; cases hf
      | some fc =>
        cases fc with
        | manifest m =>
          dsimp only
          cases requestedEntries m oc with
          | error e' => intro hf; cases hf
          | ok entries =>
            dsimp only
            have hOK := openedOk_readLoop fs' entries
              { backing := [], maskedbacking := none, opened := [] }
              (fun g hg => by cases hg)
            cases hrl : readLoop fs' { backing := [], maskedbacking := none, opened := [] }
                entries with
            | mk r stf =>
              rw [hrl] at hOK
              cases r with
              | error err => exact fun hf => hOK f hf
              | ok rcs => exact fun hf => hOK f hf
        | npyData vs => intro hf; cases hf
        | npyBools bs => intro hf; cases hf
        | jsonData vs => intro hf; cases hf
  · intro hslash hmiss
    unfold processColumn loadColFile
    rw [hmiss]
    unfold loadFromFs
    rw [if_pos hslash]
    exact ⟨rfl, rfl⟩

/-- Witness for C10: a crafted entry whose backing path contains `/`. -/
theorem c10_bare_filenames_witness :
    ("data.int32.npy" : String) ∈ (read (writeFs exT none) none).2
    ∧ strContains "data.int32.npy" '/' = false
    ∧ strContains "a/b" '/' = true
    ∧ lookupA (RState.mk [] none []).backing "a/b" = none
    ∧ (processColumn [] (RState.mk [] none [])
        (ColumnEntry.mk "x" "a/b" 0 0 none none)).1 = Except.error ReadError.assertionError
    ∧ (processColumn [] (RState.mk [] none [])
        (ColumnEntry.mk "x" "a/b" 0 0 none none)).2 = RState.mk [] none [] := by
  have h := c10_bare_filenames (writeFs exT none) none "data.int32.npy"
    [] (RState.mk [] none []) (ColumnEntry.mk "x" "a/b" 0 0 none none)
  refine ⟨by decide, h.1 (by decide), by decide, by decide, ?_, ?_⟩
  · exact (h.2 (by decide) (by decide)).1
  · exact (h.2 (by decide) (by decide)).2

/- The open-once discipline of the reader (C8). -/

theorem loadColFile_inv (fs : Fs) (entries : List ColumnEntry) (st : RState) (file : String)
    (hfa : entries.any (fun e' => e'.file == file) = true)
    (hfn : file ≠ "mask.npy")
    (hinv : StInv entries st) : StInv entries (loadColFile fs st file).2 := by
  unfold loadColFile
  cases hc : lookupA st.backing file with
  | some vs => exact hinv
  | none =>
    cases hl : loadFromFs fs file with
    | error e => exact hinv
    | ok vs =>
      dsimp only
      obtain ⟨hnd, hiff, hany, hmko, hnm⟩ := hinv
      have hnotin_keys : file ∉ st.backing.map Prod.fst := by
        intro hin
        rcases List.mem_map.mp hin with ⟨p, hp, hpe⟩
        exact (lookupA_eq_none.mp hc p hp) hpe
      have hnotin_opened : file ∉ st.opened := by
        intro hin
        rcases (hiff file).mp hin with h | ⟨h1, _⟩
        · exact hnotin_keys h
        · exact hfn h1
      refine ⟨?_, ?_, ?_, hmko, ?_⟩
      · rw [List.nodup_append]
        exact ⟨hnd, List.nodup_singleton _,
          fun a ha hb => hnotin_opened ((List.mem_singleton.mp hb) ▸ ha)⟩
      · intro g
        rw [List.mem_append, List.mem_singleton, List.map_append, hiff g]
        simp only [List.map_cons, List.map_nil, List.mem_append, List.mem_singleton]
        tauto
      · intro g hg
        rw [List.map_append] at hg
        rcases List.mem_append.mp hg with hg | hg
        · exact hany g hg
        · simp only [List.map_cons, List.map_nil] at hg
          have := List.mem_singleton.mp hg
          rw [this]
          exact hfa
      · intro g hg
        rw [List.map_append] at hg
        rcases List.mem_append.mp hg with hg | hg
        · exact hnm g hg
        · simp only [List.map_cons, List.map_nil] at hg
          have := List.mem_singleton.mp hg
          rw [this]
          exact hfn

theorem processColumn_inv (fs : Fs) (entries : List ColumnEntry)
    (st : RState) (e : ColumnEntry) (he : e ∈ entries)
    (hfn : e.file ≠ "mask.npy")
    (hinv : StInv entries st) : StInv entries (processColumn fs st e).2 := by
  have hfa : entries.any (fun e' => e'.file == e.file) = true :=
    List.any_eq_true.mpr ⟨e, he, by simp⟩
  have h1 := loadColFile_inv fs entries st e.file hfa hfn hinv
  unfold processColumn
  cases hlc : loadColFile fs st e.file with
  | mk r st1 =>
    rw [hlc] at h1
    cases r with
    | error err => exact h1
    | ok vs =>
      dsimp only
      cases hmo : e.maskoffset with
      | none => exact h1
      | some mo =>
        cases hmb : st1.maskedbacking with
        | some bs => exact h1
        | none =>
          cases hlm : loadMask fs with
          | error err => exact h1
          | ok bs =>
            obtain ⟨hnd, hiff, hany, hmko, hnm⟩ := h1
            have hnotin : "mask.npy" ∉ st1.opened := by
              intro hin
              rcases (hiff "mask.npy").mp hin with h | ⟨_, h2⟩
              · exact hnm "mask.npy" h rfl
              · rw [hmb] at h2
                cases h2
            refine ⟨?_, ?_, hany, ?_, hnm⟩
            · rw [List.nodup_append]
              exact ⟨hnd, List.nodup_singleton _,
                fun a ha hb => hnotin ((List.mem_singleton.mp hb) ▸ ha)⟩
            · intro g
              rw [List.mem_append, List.mem_singleton, hiff g, hmb]
              dsimp only
              constructor
              · rintro ((h | ⟨h1, h2⟩) | h)
                · exact Or.inl h
                · cases h2
                · exact Or.inr ⟨h, rfl⟩
              · rintro (h | ⟨h1, _⟩)
                · exact Or.inl (Or.inl h)
                · exact Or.inr h1
            · intro _
              exact List.any_eq_true.mpr ⟨e, he, by rw [hmo]; rfl⟩

theorem readLoop_inv (fs : Fs) (entries : List ColumnEntry)
    (hmask : ∀ e ∈ entries, e.file ≠ "mask.npy") :
    ∀ (es : List ColumnEntry), (∀ e ∈ es, e ∈ entries) →
    ∀ st : RState, StInv entries st → StInv entries (readLoop fs st es).2 := by
  intro es
  induction es with
  | nil => intro _ st h; exact h
  | cons e es ih =>
    intro hsub st hinv
    have hmem := hsub e (List.mem_cons_self e es)
    have h1 := processColumn_inv fs entries st e hmem (hmask e hmem) hinv
    unfold readLoop
    cases hp : processColumn fs st e with
    | mk r st1 =>
      rw [hp] at h1
      cases r with
      | error err => exact h1
      | ok rc =>
        dsimp only
        have h2 := ih (fun e' he' => hsub e' (List.mem_cons_of_mem e he')) st1 h1
        cases hrl : readLoop fs st1 es with
        | mk r2 st2 =>
          rw [hrl] at h2
          cases r2 with
          | error err => exact h2
          | ok rcs => exact h2

/-- C8: within one `read` call each distinct backing file (the mask file
included) is opened at most once, and every opened file is referenced by a
requested column (the mask file only when a requested column carries a
`maskoffset`). -/
theorem c8_open_once (fs : Fs) (oc : Option (List String)) (m : Manifest)
    (entries : List ColumnEntry) (f : String)
    (hman : getFile fs "bintable.json" = some (FileContent.manifest m))
    (hreq : requestedEntries m oc = Except.ok entries)
    (hmask : ∀ e ∈ entries, e.file ≠ "mask.npy") :
    (read (some fs) oc).2.Nodup
    ∧ (f ∈ (read (some fs) oc).2 →
        entries.any (fun e => e.file == f) = true
          ∨ (f = "mask.npy" ∧ entries.any (fun e => e.maskoffset.isSome) = true)) := by
  unfold BinTable.read
  dsimp only
  rw [hman]
  dsimp only
  rw [hreq]
  dsimp only
  have hini : StInv entries { backing := [], maskedbacking := none, opened := [] } := by
    refine ⟨List.nodup_nil, ?_, ?_, ?_, ?_⟩
    · intro g
      constructor
      · intro h; cases h
      · rintro (h | ⟨_, h⟩)
        · cases h
        · cases h
    · intro g hg; cases hg
    · intro h; cases h
    · intro g hg; cases hg
  have hfin := readLoop_inv fs entries hmask entries (fun e he => he)
    { backing := [], maskedbacking := none, opened := [] } hini
  cases hrl : readLoop fs { backing := [], maskedbacking := none, opened := [] } entries with
  | mk r st =>
    rw [hrl] at hfin
    obtain ⟨hnd, hiff, hany, hmko, _⟩ := hfin
    cases r with
    | ok rcs =>
      refine ⟨hnd, ?_⟩
      intro hf
      rcases (hiff f).mp hf with h | ⟨h1, h2⟩
      · exact Or.inl (hany f h)
      · exact Or.inr ⟨h1, hmko h2⟩
    | error err =>
      refine ⟨hnd, ?_⟩
      intro hf
      rcases (hiff f).mp hf with h | ⟨h1, h2⟩
      · exact Or.inl (hany f h)
      · exact Or.inr ⟨h1, hmko h2⟩

/-- Witness for C8 at the example dataset, checking the mask file. -/
theorem c8_open_once_witness :
    getFile (filesSpec exT) "bintable.json"
      = some (FileContent.manifest (manifestSpec exT))
    ∧ requestedEntries (manifestSpec exT) none = Except.ok (manifestSpec exT).columns
    ∧ (∀ e ∈ (manifestSpec exT).columns, e.file ≠ "mask.npy")
    ∧ (read (some (filesSpec exT)) none).2.Nodup
    ∧ ((manifestSpec exT).columns.any (fun e => e.file == "mask.npy") = true
        ∨ ("mask.npy" = "mask.npy"
            ∧ (manifestSpec exT).columns.any (fun e => e.maskoffset.isSome) = true)) := by
  have h := c8_open_once (filesSpec exT) none (manifestSpec exT)
    (manifestSpec exT).columns "mask.npy" (by decide) rfl (by decide)
  exact ⟨by decide, rfl, by decide, h.1, h.2 (by decide)⟩

/- Manifest layout facts (C3, C5). -/

theorem writeFs_manifest (t : Table) (m : Manifest)
    (hman : fileAt (writeFs t none) "bintable.json" = some (FileContent.manifest m)) :
    (∀ c ∈ t.columns, ColOk t.masked c) ∧ m = manifestSpec t
      ∧ writeFs t none = some (filesSpec t) := by
  cases hwr : write t none with
  | error e =>
    exfalso
    unfold writeFs at hman
    rw [hwr] at hman
    cases hman
  | ok tr =>
    obtain ⟨hok, _⟩ := write_ok_inv t none tr hwr
    have hweq := write_eq t hok
    rw [hwr] at hweq
    have htr := Except.ok.inj hweq
    have hfs : writeFs t none = some (filesSpec t) := by
      unfold writeFs
      rw [hwr]
      dsimp only
      rw [htr, applyOps_traceSpec]
    refine ⟨hok, ?_, hfs⟩
    rw [hfs] at hman
    have h1 : getFile (filesSpec t) "bintable.json" = some (FileContent.manifest m) := hman
    rw [getFile_filesSpec_committed] at h1
    have h2 := Option.some.inj h1
    injection h2 with h3
    exact h3.symm

theorem entriesSpec_length (masked : Bool) :
    ∀ (cs done : List Column), (entriesSpec masked done cs).length = cs.length := by
  intro cs
  induction cs with
  | nil => intro done; rfl
  | cons c cs ih =>
    intro done
    unfold entriesSpec
    rw [List.length_cons, List.length_cons, ih]

theorem entriesSpec_take (masked : Bool) :
    ∀ (cs done : List Column) (j : Nat),
      (entriesSpec masked done cs).take j = entriesSpec masked done (cs.take j) := by
  intro cs
  induction cs with
  | nil => intro done j; simp [entriesSpec]
  | cons c cs ih =>
    intro done j
    cases j with
    | zero => rfl
    | succ j =>
      rw [List.take_succ_cons]
      show (mkEntry masked done c :: entriesSpec masked (done ++ [c]) cs).take (j + 1)
        = mkEntry masked done c :: entriesSpec masked (done ++ [c]) (cs.take j)
      rw [List.take_succ_cons, ih]

theorem entriesSpec_getElem? (masked : Bool) :
    ∀ (cs done : List Column) (j : Nat),
      (entriesSpec masked done cs)[j]?
        = (cs[j]?).map (fun c => mkEntry masked (done ++ cs.take j) c) := by
  intro cs
  induction cs with
  | nil => intro done j; simp [entriesSpec]
  | cons c cs ih =>
    intro done j
    cases j with
    | zero =>
      unfold entriesSpec
      simp
    | succ j =>
      unfold entriesSpec
      rw [List.getElem?_cons_succ, List.getElem?_cons_succ, ih (done ++ [c]) j,
        List.take_succ_cons]
      rw [show done ++ c :: cs.take j = (done ++ [c]) ++ cs.take j from by
        rw [List.append_assoc]; rfl]

theorem keyName_default {k : String} {cs : List Column} (h : usedKey k cs = true) :
    ∃ c ∈ cs, colKey c = k ∧ keyName k cs = defaultName c := by
  unfold usedKey at h
  cases hf : cs.find? (fun c => colKey c == k) with
  | none =>
    rcases List.any_eq_true.mp h with ⟨c, hc, hpred⟩
    exact absurd hpred (List.find?_eq_none.mp hf c hc)
  | some c =>
    refine ⟨c, List.mem_of_find?_eq_some hf, by simpa using List.find?_some hf, ?_⟩
    unfold keyName
    rw [hf]

theorem keyName_inj_used {k1 k2 : String} {cs : List Column}
    (h1 : usedKey k1 cs = true) (h2 : usedKey k2 cs = true)
    (heq : keyName k1 cs = keyName k2 cs) : k1 = k2 := by
  obtain ⟨c1, _, hck1, hn1⟩ := keyName_default h1
  obtain ⟨c2, _, hck2, hn2⟩ := keyName_default h2
  rw [← hck1, ← hck2]
  apply defaultName_inj
  rw [← hn1, ← hn2, heq]

theorem usedKey_of_mem {c : Column} {cs : List Column} (hc : c ∈ cs) :
    usedKey (colKey c) cs = true :=
  List.any_eq_true.mpr ⟨c, hc, by simp⟩

theorem mkEntry_file_full (masked : Bool) {t : Table} {done rest : List Column} {c : Column}
    (hsplit : t.columns = done ++ c :: rest) :
    (mkEntry masked done c).file = keyName (colKey c) t.columns := by
  show keyName (colKey c) (done ++ [c]) = _
  have husedDC : usedKey (colKey c) (done ++ [c]) = true := by
    rw [usedKey_append, usedKey_single]
    simp
  rw [show t.columns = (done ++ [c]) ++ rest from by rw [hsplit, List.append_assoc]; rfl,
    keyName_of_used _ _ _ husedDC]

theorem rowsOfKey_cons (k : String) (c : Column) (cs : List Column) :
    rowsOfKey k (c :: cs)
      = (if colKey c == k then c.data.length else 0) + rowsOfKey k cs := by
  rw [show c :: cs = [c] ++ cs from rfl, rowsOfKey_append, rowsOfKey_single]

theorem filter_sum_ES (masked : Bool) (t : Table) (k : String)
    (husedk : usedKey k t.columns = true) :
    ∀ rest done ext : List Column, t.columns = done ++ rest ++ ext →
    (((entriesSpec masked done rest).filter
        (fun e => e.file == keyName k t.columns)).map ColumnEntry.length).sum
      = rowsOfKey k rest := by
  intro rest
  induction rest with
  | nil => intro done ext _; rfl
  | cons c cs ih =>
    intro done ext hsplit
    have hsplit' : t.columns = done ++ c :: (cs ++ ext) := by
      rw [hsplit]
      simp [List.append_assoc]
    unfold entriesSpec
    rw [List.filter_cons]
    have hcmem : c ∈ t.columns := by
      rw [hsplit']
      exact List.mem_append.mpr (Or.inr (List.mem_cons_self c (cs ++ ext)))
    have hfile := mkEntry_file_full masked hsplit'
    have hih := ih (done ++ [c]) ext (by rw [hsplit']; simp [List.append_assoc])
    by_cases hkey : colKey c = k
    · have hpred : ((mkEntry masked done c).file == keyName k t.columns) = true := by
        rw [hfile, hkey]
        simp
      rw [if_pos hpred, List.map_cons, List.sum_cons, hih, rowsOfKey_cons,
        if_pos (by simpa using hkey)]
      rfl
    · have hpred : ((mkEntry masked done c).file == keyName k t.columns) = false := by
        rw [hfile]
        simp only [beq_eq_false_iff_ne, ne_eq]
        intro heq
        exact hkey (keyName_inj_used (usedKey_of_mem hcmem) husedk heq)
      rw [if_neg (by rw [hpred]; exact Bool.false_ne_true), hih, rowsOfKey_cons,
        if_neg (by simpa using hkey)]
      exact (Nat.zero_add _).symm

theorem maskRows_cons_true (c : Column) (cs : List Column) :
    maskRows true (c :: cs)
      = (if maskedCol c then c.data.length else 0) + maskRows true cs := by
  rw [show c :: cs = [c] ++ cs from rfl, maskRows_append, maskRows_single]
  cases hmc : maskedCol c <;> rfl

theorem filter_sum_ES_mask :
    ∀ rest done : List Column,
    (((entriesSpec true done rest).filter
        (fun e => e.maskoffset.isSome)).map ColumnEntry.length).sum
      = maskRows true rest := by
  intro rest
  induction rest with
  | nil => intro done; rfl
  | cons c cs ih =>
    intro done
    unfold entriesSpec
    rw [List.filter_cons]
    have hih := ih (done ++ [c])
    by_cases hmc : maskedCol c = true
    · have hpred : ((mkEntry true done c).maskoffset.isSome) = true := by
        show (if true && maskedCol c then some (maskRows true done) else none).isSome = true
        rw [hmc]
        rfl
      rw [if_pos hpred, List.map_cons, List.sum_cons, hih, maskRows_cons_true, if_pos hmc]
      rfl
    · have hpred : ((mkEntry true done c).maskoffset.isSome) = false := by
        show (if true && maskedCol c then some (maskRows true done) else none).isSome = false
        rw [Bool.eq_false_iff.mpr hmc]
        rfl
      rw [if_neg (by rw [hpred]; exact Bool.false_ne_true), hih, maskRows_cons_true,
        if_neg hmc]
      exact (Nat.zero_add _).symm

theorem rows_prefix_le (t : Table) (k : String) {i j : Nat} (hij : i < j)
    {ci : Column} (hci : t.columns[i]? = some ci) (hk : colKey ci = k) :
    rowsOfKey k (t.columns.take i) + ci.data.length ≤ rowsOfKey k (t.columns.take j) := by
  rw [show j = (i + 1) + (j - (i + 1)) from by omega, List.take_add, rowsOfKey_append]
  have h1 : t.columns.take (i + 1) = t.columns.take i ++ [ci] := by
    rw [List.take_succ, hci]
    rfl
  rw [h1, rowsOfKey_append, rowsOfKey_single, hk]
  simp only [beq_self_eq_true, if_true]
  omega

theorem maskRows_prefix_le (t : Table) {i j : Nat} (hij : i < j)
    {ci : Column} (hci : t.columns[i]? = some ci) (hmc : maskedCol ci = true) :
    maskRows true (t.columns.take i) + ci.data.length ≤ maskRows true (t.columns.take j) := by
  rw [show j = (i + 1) + (j - (i + 1)) from by omega, List.take_add, maskRows_append]
  have h1 : t.columns.take (i + 1) = t.columns.take i ++ [ci] := by
    rw [List.take_succ, hci]
    rfl
  rw [h1, maskRows_append, maskRows_single, hmc]
  simp only [Bool.and_true, if_true]
  omega

theorem manifestSpec_getD (t : Table) {j : Nat} {cj : Column}
    (hcj : t.columns[j]? = some cj) :
    (manifestSpec t).columns.getD j dEntry = mkEntry t.masked (t.columns.take j) cj := by
  rw [List.getD_eq_getElem?_getD]
  show (entriesSpec t.masked [] t.columns)[j]?.getD dEntry = _
  rw [entriesSpec_getElem?, hcj]
  simp

theorem cols_split_at (t : Table) {j : Nat} {cj : Column}
    (hcj : t.columns[j]? = some cj) :
    t.columns = t.columns.take j ++ cj :: (t.columns.drop (j + 1)) := by
  have hjlen : j < t.columns.length := by
    by_contra hge
    rw [List.getElem?_eq_none (by omega)] at hcj
    cases hcj
  conv_lhs => rw [← List.take_append_drop j t.columns]
  congr 1
  rw [List.drop_eq_getElem_cons hjlen]
  congr 1
  have := List.getElem?_eq_getElem hjlen
  rw [this] at hcj
  exact (Option.some.inj hcj)

theorem maskChunks_split {cs pre post : List Column} {c : Column}
    (h : cs = pre ++ c :: post) (hmc : maskedCol c = true) :
    (maskChunks true cs).flatten
      = (maskChunks true pre).flatten ++ (c.mask ++ (maskChunks true post).flatten) := by
  rw [h, show c :: post = [c] ++ post from rfl, maskChunks_append, maskChunks_append,
    maskChunks_single, show (true && maskedCol c) = true from by rw [hmc]; rfl]
  simp [List.flatten_append]

theorem mkEntry_maskoffset_some {masked : Bool} {done : List Column} {c : Column} {mo : Nat}
    (h : (mkEntry masked done c).maskoffset = some mo) :
    masked = true ∧ maskedCol c = true ∧ mo = maskRows masked done := by
  have h' : (if masked && maskedCol c then some (maskRows masked done) else none) = some mo := h
  by_cases hb : (masked && maskedCol c) = true
  · obtain ⟨h1, h2⟩ := Bool.and_eq_true_iff.mp hb
    rw [if_pos hb] at h'
    exact ⟨h1, h2, (Option.some.inj h').symm⟩
  · rw [if_neg hb] at h'
    cases h'

/-- C3: in the manifest committed by `write`, each column's range is
contiguous and gapless within its backing file (its offset is the sum of
the lengths of the earlier columns of the same file), ranges of distinct
columns sharing a backing file are disjoint, and the `maskoffset` ranges
within the shared mask buffer satisfy the same contiguity and
disjointness. -/
theorem c3_offset_layout (t : Table) (m : Manifest) (i j x moi moj : Nat)
    (hman : fileAt (writeFs t none) "bintable.json" = some (FileContent.manifest m))
    (hi : i < m.columns.length) (hj : j < m.columns.length) :
    ((m.columns.getD j dEntry).offset
        = (((m.columns.take j).filter
            (fun e => e.file == (m.columns.getD j dEntry).file)).map ColumnEntry.length).sum)
    ∧ (i ≠ j → (m.columns.getD i dEntry).file = (m.columns.getD j dEntry).file →
        (m.columns.getD i dEntry).offset ≤ x →
        x < (m.columns.getD i dEntry).offset + (m.columns.getD i dEntry).length →
        ¬((m.columns.getD j dEntry).offset ≤ x
          ∧ x < (m.columns.getD j dEntry).offset + (m.columns.getD j dEntry).length))
    ∧ ((m.columns.getD j dEntry).maskoffset = some moj →
        moj = (((m.columns.take j).filter
            (fun e => e.maskoffset.isSome)).map ColumnEntry.length).sum)
    ∧ (i ≠ j → (m.columns.getD i dEntry).maskoffset = some moi →
        (m.columns.getD j dEntry).maskoffset = some moj →
        moi ≤ x → x < moi + (m.columns.getD i dEntry).length →
        ¬(moj ≤ x ∧ x < moj + (m.columns.getD j dEntry).length)) := by
  obtain ⟨hok, hm, _⟩ := writeFs_manifest t m hman
  subst hm
  have hlen : (manifestSpec t).columns.length = t.columns.length :=
    entriesSpec_length t.masked t.columns []
  have hi' : i < t.columns.length := by rw [← hlen]; exact hi
  have hj' : j < t.columns.length := by rw [← hlen]; exact hj
  obtain ⟨ci, hci⟩ : ∃ c, t.columns[i]? = some c := ⟨_, List.getElem?_eq_getElem hi'⟩
  obtain ⟨cj, hcj⟩ : ∃ c, t.columns[j]? = some c := ⟨_, List.getElem?_eq_getElem hj'⟩
  have hei := manifestSpec_getD t hci
  have hej := manifestSpec_getD t hcj
  have hsplit_i := cols_split_at t hci
  have hsplit_j := cols_split_at t hcj
  have hmem_i : ci ∈ t.columns := by
    rw [hsplit_i]
    exact List.mem_append.mpr (Or.inr (List.mem_cons_self _ _))
  have hmem_j : cj ∈ t.columns := by
    rw [hsplit_j]
    exact List.mem_append.mpr (Or.inr (List.mem_cons_self _ _))
  have htake : ∀ n : Nat, (manifestSpec t).columns.take n
      = entriesSpec t.masked [] (t.columns.take n) :=
    fun n => entriesSpec_take t.masked t.columns [] n
  have hoi : ((manifestSpec t).columns.getD i dEntry).offset
      = rowsOfKey (colKey ci) (t.columns.take i) := by rw [hei]; rfl
  have hli : ((manifestSpec t).columns.getD i dEntry).length = ci.data.length := by
    rw [hei]; rfl
  have hoj : ((manifestSpec t).columns.getD j dEntry).offset
      = rowsOfKey (colKey cj) (t.columns.take j) := by rw [hej]; rfl
  have hlj : ((manifestSpec t).columns.getD j dEntry).length = cj.data.length := by
    rw [hej]; rfl
  refine ⟨?_, ?_, ?_, ?_⟩
  · rw [hej]
    rw [show (mkEntry t.masked (t.columns.take j) cj).file
        = keyName (colKey cj) t.columns from mkEntry_file_full t.masked hsplit_j]
    rw [htake j]
    have hsum := filter_sum_ES t.masked t (colKey cj) (usedKey_of_mem hmem_j)
      (t.columns.take j) [] (cj :: t.columns.drop (j + 1))
      (by rw [List.nil_append]; exact hsplit_j)
    exact hsum.symm
  · intro hij hfile hx1 hx2
    rintro ⟨hy1, hy2⟩
    rw [hei, hej, mkEntry_file_full t.masked hsplit_i, mkEntry_file_full t.masked hsplit_j]
      at hfile
    have hkeq : colKey ci = colKey cj :=
      keyName_inj_used (usedKey_of_mem hmem_i) (usedKey_of_mem hmem_j) hfile
    rw [hoi] at hx1
    rw [hoi, hli] at hx2
    rw [hoj] at hy1
    rw [hoj, hlj] at hy2
    rcases Nat.lt_or_ge i j with hlt | hge
    · have hle := rows_prefix_le t (colKey cj) hlt hci hkeq
      rw [hkeq] at hx1 hx2
      omega
    · have hlt : j < i := by omega
      have hle := rows_prefix_le t (colKey cj) hlt hcj rfl
      rw [hkeq] at hx1 hx2
      omega
  · intro hmoj
    rw [hej] at hmoj
    obtain ⟨hmk, hmcj, hmojv⟩ := mkEntry_maskoffset_some hmoj
    rw [hmojv, hmk, htake j, hmk]
    exact (filter_sum_ES_mask (t.columns.take j) []).symm
  · intro hij hmoi hmoj hx1 hx2
    rintro ⟨hy1, hy2⟩
    rw [hei] at hmoi
    rw [hej] at hmoj
    obtain ⟨hmk, hmci, hmoiv⟩ := mkEntry_maskoffset_some hmoi
    obtain ⟨_, hmcj, hmojv⟩ := mkEntry_maskoffset_some hmoj
    rw [hmoiv, hmk] at hx1 hx2
    rw [hmojv, hmk] at hy1 hy2
    rw [hli] at hx2
    rw [hlj] at hy2
    rcases Nat.lt_or_ge i j with hlt | hge
    · have hle := maskRows_prefix_le t hlt hci hmci
      omega
    · have hlt : j < i := by omega
      have hle := maskRows_prefix_le t hlt hcj hmcj
      omega

/-- Witness for C3 at a table with three same-file columns, two masked. -/
theorem c3_offset_layout_witness :
    fileAt (writeFs exW3 none) "bintable.json"
      = some (FileContent.manifest (manifestSpec exW3))
    ∧ (0 : Nat) < (manifestSpec exW3).columns.length
    ∧ (2 : Nat) < (manifestSpec exW3).columns.length
    ∧ (((manifestSpec exW3).columns.getD 2 dEntry).offset
        = ((((manifestSpec exW3).columns.take 2).filter
            (fun e => e.file == ((manifestSpec exW3).columns.getD 2 dEntry).file)).map
              ColumnEntry.length).sum)
    ∧ ((0 : Nat) ≠ 2 → ((manifestSpec exW3).columns.getD 0 dEntry).file
          = ((manifestSpec exW3).columns.getD 2 dEntry).file →
        ((manifestSpec exW3).columns.getD 0 dEntry).offset ≤ 1 →
        (1 : Nat) < ((manifestSpec exW3).columns.getD 0 dEntry).offset
          + ((manifestSpec exW3).columns.getD 0 dEntry).length →
        ¬(((manifestSpec exW3).columns.getD 2 dEntry).offset ≤ 1
          ∧ (1 : Nat) < ((manifestSpec exW3).columns.getD 2 dEntry).offset
            + ((manifestSpec exW3).columns.getD 2 dEntry).length))
    ∧ (((manifestSpec exW3).columns.getD 2 dEntry).maskoffset = some 2 →
        (2 : Nat) = ((((manifestSpec exW3).columns.take 2).filter
            (fun e => e.maskoffset.isSome)).map ColumnEntry.length).sum) := by
  have h := c3_offset_layout exW3 (manifestSpec exW3) 0 2 1 0 2 (by decide) (by decide) (by decide)
  exact ⟨by decide, by decide, by decide, h.1, h.2.1, h.2.2.1⟩

/-- C5: a column's manifest entry carries a `maskoffset` exactly when the
table is masked and the column has an invalid entry; when present, the full
per-row mask is found at `[maskoffset, maskoffset+length)` in the shared
mask file; a column entry without `maskoffset` reads back with an all-valid
mask regardless of the dataset's `masked` flag. -/
theorem c5_mask_semantics (t : Table) (m : Manifest) (i mo : Nat) (bs : List Bool)
    (fs' : Fs) (e : ColumnEntry) (rc : ReadCol)
    (hman : fileAt (writeFs t none) "bintable.json" = some (FileContent.manifest m))
    (hi : i < m.columns.length) :
    m.columns.length = t.columns.length
    ∧ ((m.columns.getD i dEntry).maskoffset.isSome
        = (t.masked && maskedCol (t.columns.getD i dColumn)))
    ∧ ((m.columns.getD i dEntry).maskoffset = some mo →
        (fileAt (writeFs t none) "mask.npy").isSome = true)
    ∧ ((m.columns.getD i dEntry).maskoffset = some mo →
        fileAt (writeFs t none) "mask.npy" = some (FileContent.npyBools bs) →
        ((bs.drop mo).take (m.columns.getD i dEntry).length = (t.columns.getD i dColumn).mask
          ∧ (t.columns.getD i dColumn).mask.length = (t.columns.getD i dColumn).data.length))
    ∧ (e.maskoffset = none → readColPure fs' e = Except.ok rc →
        rc.mask = List.replicate rc.data.length false) := by
  obtain ⟨hok, hm, hfs⟩ := writeFs_manifest t m hman
  subst hm
  have hlen : (manifestSpec t).columns.length = t.columns.length :=
    entriesSpec_length t.masked t.columns []
  have hi' : i < t.columns.length := by rw [← hlen]; exact hi
  obtain ⟨ci, hci⟩ : ∃ c, t.columns[i]? = some c := ⟨_, List.getElem?_eq_getElem hi'⟩
  have hei := manifestSpec_getD t hci
  have hsplit_i := cols_split_at t hci
  have hmem_i : ci ∈ t.columns := by
    rw [hsplit_i]
    exact List.mem_append.mpr (Or.inr (List.mem_cons_self _ _))
  have hgc : t.columns.getD i dColumn = ci := by
    rw [List.getD_eq_getElem?_getD, hci]
    rfl
  have hmaskne : t.masked = true → maskedCol ci = true →
      (maskChunks t.masked t.columns).isEmpty = false := by
    intro hmk hmc
    rw [hmk, hsplit_i, show (ci :: t.columns.drop (i + 1))
        = [ci] ++ t.columns.drop (i + 1) from rfl, maskChunks_append, maskChunks_append,
      maskChunks_single, show (true && maskedCol ci) = true from by rw [hmc]; rfl]
    simp only [if_true]
    apply Bool.eq_false_iff.mpr
    intro hE
    rw [List.isEmpty_iff] at hE
    rcases List.append_eq_nil.mp hE with ⟨_, h2⟩
    rcases List.append_eq_nil.mp h2 with ⟨h3, _⟩
    cases h3
  refine ⟨hlen, ?_, ?_, ?_, ?_⟩
  · rw [hei, hgc]
    show (if t.masked && maskedCol ci then some (maskRows t.masked (t.columns.take i))
        else none).isSome = (t.masked && maskedCol ci)
    cases t.masked && maskedCol ci <;> rfl
  · intro hmo
    rw [hei] at hmo
    obtain ⟨hmk, hmci, _⟩ := mkEntry_maskoffset_some hmo
    rw [hfs]
    show (getFile (filesSpec t) "mask.npy").isSome = true
    rw [getFile_filesSpec_mask t (hmaskne hmk hmci)]
    rfl
  · intro hmo hbs
    rw [hei] at hmo
    obtain ⟨hmk, hmci, hmov⟩ := mkEntry_maskoffset_some hmo
    rw [hfs] at hbs
    have hbs2 : getFile (filesSpec t) "mask.npy" = some (FileContent.npyBools bs) := hbs
    rw [getFile_filesSpec_mask t (hmaskne hmk hmci)] at hbs2
    have hbsv : (maskChunks t.masked t.columns).flatten = bs := by
      have h2 := Option.some.inj hbs2
      injection h2
    have hclen : ci.mask.length = ci.data.length := ((hok ci hmem_i).2) hmk hmci
    have hmchunks : (maskChunks t.masked t.columns).flatten
        = (maskChunks true (t.columns.take i)).flatten
          ++ (ci.mask ++ (maskChunks true (t.columns.drop (i + 1))).flatten) := by
      rw [hmk]
      exact maskChunks_split hsplit_i hmci
    have hmlen : (maskChunks true (t.columns.take i)).flatten.length
        = maskRows t.masked (t.columns.take i) := by
      rw [hmk]
      apply maskChunks_flatten_len
      intro c0 hc0 hmc0
      have hc0mem : c0 ∈ t.columns := List.mem_of_mem_take hc0
      exact ((hok c0 hc0mem).2) hmk hmc0
    refine ⟨?_, by rw [hgc]; exact hclen⟩
    rw [← hbsv, hmov, hei, hgc]
    show ((((maskChunks t.masked t.columns).flatten).drop
        (maskRows t.masked (t.columns.take i))).take ci.data.length) = ci.mask
    rw [hmchunks, List.drop_left' hmlen, List.take_left' hclen]
  · intro hmo hrc
    unfold readColPure at hrc
    cases hl : loadFromFs fs' e.file with
    | error err => rw [hl] at hrc; cases hrc
    | ok vs =>
      rw [hl] at hrc
      dsimp only at hrc
      rw [hmo] at hrc
      dsimp only at hrc
      have h2 := Except.ok.inj hrc
      rw [← h2]

/-- Witness for C5 at the masked example table. -/
theorem c5_mask_semantics_witness :
    fileAt (writeFs exW3 none) "bintable.json"
      = some (FileContent.manifest (manifestSpec exW3))
    ∧ (0 : Nat) < (manifestSpec exW3).columns.length
    ∧ (manifestSpec exW3).columns.length = exW3.columns.length
    ∧ ((manifestSpec exW3).columns.getD 0 dEntry).maskoffset.isSome
        = (exW3.masked && maskedCol (exW3.columns.getD 0 dColumn))
    ∧ ((manifestSpec exW3).columns.getD 0 dEntry).maskoffset = some 0
    ∧ fileAt (writeFs exW3 none) "mask.npy"
        = some (FileContent.npyBools [true, false, true])
    ∧ (([true, false, true].drop 0).take ((manifestSpec exW3).columns.getD 0 dEntry).length
          = (exW3.columns.getD 0 dColumn).mask
        ∧ (exW3.columns.getD 0 dColumn).mask.length = (exW3.columns.getD 0 dColumn).data.length)
    ∧ ((ColumnEntry.mk "b" "data.int32.npy" 2 1 none none).maskoffset = none
        ∧ readColPure (filesSpec exW3) (ColumnEntry.mk "b" "data.int32.npy" 2 1 none none)
            = Except.ok (ReadCol.mk "b" [Val.int 3] [false] none)
        ∧ (ReadCol.mk "b" [Val.int 3] [false] none).mask
            = List.replicate (ReadCol.mk "b" [Val.int 3] [false] none).data.length false) := by
  have h := c5_mask_semantics exW3 (manifestSpec exW3) 0 0 [true, false, true]
    (filesSpec exW3) (ColumnEntry.mk "b" "data.int32.npy" 2 1 none none)
    (ReadCol.mk "b" [Val.int 3] [false] none) (by decide) (by decide)
  refine ⟨by decide, by decide, h.1, h.2.1, by decide, by decide, ?_, ?_⟩
  · exact h.2.2.2.1 (by decide) (by decide)
  · exact ⟨by decide, by decide, h.2.2.2.2 (by decide) (by decide)⟩

/- Selective reads: the subset loop computes, per requested name, the same
column the full read produces for that name. -/

theorem readColPure_name (fs : Fs) (e : ColumnEntry) (rc : ReadCol)
    (h : readColPure fs e = Except.ok rc) : rc.name = e.name := by
  unfold readColPure at h
  cases hl : loadFromFs fs e.file with
  | error err => rw [hl] at h; cases h
  | ok vs =>
    rw [hl] at h
    dsimp only at h
    cases hmo : e.maskoffset with
    | none =>
      rw [hmo] at h
      dsimp only at h
      rw [← Except.ok.inj h]
    | some mo =>
      rw [hmo] at h
      dsimp only at h
      cases hm : loadMask fs with
      | error err => rw [hm] at h; cases h
      | ok bs =>
        rw [hm] at h
        dsimp only at h
        rw [← Except.ok.inj h]

theorem mapE_forall2 {α β : Type} (f : α → Except ReadError β) (l : List α) :
    ∀ r : List β, mapE f l = Except.ok r →
      List.Forall₂ (fun a b => f a = Except.ok b) l r := by
  induction l with
  | nil =>
    intro r h
    unfold mapE at h
    rw [← Except.ok.inj h]
    exact List.Forall₂.nil
  | cons a l ih =>
    intro r h
    unfold mapE at h
    cases hf : f a with
    | error e => rw [hf] at h; cases h
    | ok b =>
      rw [hf] at h
      dsimp only at h
      cases hm : mapE f l with
      | error e => rw [hm] at h; cases h
      | ok bs =>
        rw [hm] at h
        dsimp only at h
        rw [← Except.ok.inj h]
        exact List.Forall₂.cons hf (ih bs hm)

theorem find?_cons_pos {α : Type} (p : α → Bool) (a : α) (l : List α) (h : p a = true) :
    List.find? p (a :: l) = some a := List.find?_cons_of_pos l h

theorem find?_cons_neg {α : Type} (p : α → Bool) (a : α) (l : List α) (h : p a = false) :
    List.find? p (a :: l) = List.find? p l :=
  List.find?_cons_of_neg l (by rw [h]; exact Bool.false_ne_true)

theorem find?_forall2 (fs : Fs) (es : List ColumnEntry) (rcs : List ReadCol)
    (h : List.Forall₂ (fun e rc => readColPure fs e = Except.ok rc) es rcs) :
    ∀ n : String,
      (es.find? (fun e => e.name == n)).map (readColPure fs)
        = (rcs.find? (fun rc => rc.name == n)).map Except.ok := by
  induction h with
  | nil => intro n; rfl
  | @cons e rc es2 rcs2 hR hrest ih =>
    intro n
    have hname : rc.name = e.name := readColPure_name fs e rc hR
    cases hn : (e.name == n) with
    | true =>
      rw [find?_cons_pos (fun e => e.name == n) e es2 hn,
        find?_cons_pos (fun rc => rc.name == n) rc rcs2
          (by show (rc.name == n) = true; rw [hname]; exact hn)]
      dsimp only [Option.map]
      rw [hR]
    | false =>
      rw [find?_cons_neg (fun e => e.name == n) e es2 hn,
        find?_cons_neg (fun rc => rc.name == n) rc rcs2
          (by show (rc.name == n) = false; rw [hname]; exact hn)]
      exact ih n

theorem find?_append_none {α : Type} (p : α → Bool) (l1 l2 : List α)
    (h : l1.find? p = none) : (l1 ++ l2).find? p = l2.find? p := by
  induction l1 with
  | nil => rfl
  | cons a l ih =>
    have hall := List.find?_eq_none.mp h
    have hpa : p a = false := by
      have := hall a (List.mem_cons_self a l)
      exact Bool.not_eq_true _ ▸ this
    rw [List.cons_append, find?_cons_neg p a (l ++ l2) hpa]
    exact ih (List.find?_eq_none.mpr (fun x hx => hall x (List.mem_cons_of_mem a hx)))

theorem coldictFind_nodup (es : List ColumnEntry) (n : String)
    (hnd : (es.map (fun e => e.name)).Nodup) :
    coldictFind es n = es.find? (fun e => e.name == n) := by
  unfold coldictFind
  induction es with
  | nil => rfl
  | cons e es ih =>
    rw [List.map_cons, List.nodup_cons] at hnd
    obtain ⟨hne, hnd2⟩ := hnd
    rw [List.reverse_cons]
    cases hn : (e.name == n) with
    | true =>
      have hen : e.name = n := eq_of_beq hn
      have hnone : es.reverse.find? (fun x => x.name == n) = none := by
        apply List.find?_eq_none.mpr
        intro x hx hpx
        have hx2 : x ∈ es := List.mem_reverse.mp hx
        have hxn : x.name = n := eq_of_beq hpx
        exact hne (by rw [hen, ← hxn]; exact List.mem_map_of_mem _ hx2)
      rw [find?_append_none _ _ _ hnone, find?_cons_pos (fun x => x.name == n) e [] hn,
        find?_cons_pos (fun x => x.name == n) e es hn]
    | false =>
      rw [find?_cons_neg (fun x => x.name == n) e es hn, ← ih hnd2]
      have hone : ([e].find? (fun x => x.name == n)) = none := by
        apply List.find?_eq_none.mpr
        intro x hx hpx
        cases hx with
        | head => rw [hn] at hpx; cases hpx
        | tail _ hx2 => cases hx2
      induction es.reverse with
      | nil => exact hone
      | cons a l ih2 =>
        rw [List.cons_append]
        cases hpa : (a.name == n) with
        | true =>
          rw [find?_cons_pos (fun x => x.name == n) a (l ++ [e]) hpa,
            find?_cons_pos (fun x => x.name == n) a l hpa]
        | false =>
          rw [find?_cons_neg (fun x => x.name == n) a (l ++ [e]) hpa,
            find?_cons_neg (fun x => x.name == n) a l hpa]
          exact ih2

theorem resolveSubset_ok (es : List ColumnEntry) (S : List String)
    (h : ∀ n ∈ S, (coldictFind es n).isSome) :
    resolveSubset es S
      = Except.ok (S.map (fun n => (coldictFind es n).getD dEntry)) := by
  induction S with
  | nil => rfl
  | cons n S ih =>
    have hs := h n (List.mem_cons_self n S)
    unfold resolveSubset
    cases hcf : coldictFind es n with
    | none => rw [hcf] at hs; cases hs
    | some e =>
      dsimp only
      rw [ih (fun x hx => h x (List.mem_cons_of_mem n hx))]
      simp [hcf]

theorem mapE_map_ok (f : ColumnEntry → Except ReadError ReadCol)
    (g : String → ColumnEntry) (h2 : String → ReadCol) (S : List String)
    (h : ∀ n ∈ S, f (g n) = Except.ok (h2 n)) :
    mapE f (S.map g) = Except.ok (S.map h2) := by
  induction S with
  | nil => rfl
  | cons n S ih =>
    rw [List.map_cons, List.map_cons]
    unfold mapE
    rw [h n (List.mem_cons_self n S), ih (fun x hx => h x (List.mem_cons_of_mem n hx))]

/-- C6: for a committed dataset whose manifest has pairwise-distinct column
names, a selective read over a subset `S` of the manifest names returns,
in `S` order, for each requested name exactly the column the full read
returns under that name, with the same metadata and masked flag. -/
theorem c6_selective_read (d : Option Fs) (m : Manifest) (S : List String) (res : ReadResult)
    (hman : fileAt d "bintable.json" = some (FileContent.manifest m))
    (hnd : (m.columns.map (fun e => e.name)).Nodup)
    (hS : ∀ n ∈ S, n ∈ m.columns.map (fun e => e.name))
    (hfull : (read d none).1 = Except.ok res) :
    (read d (some S)).1
      = Except.ok (ReadResult.mk res.meta res.masked
          (S.map (fun n => (res.cols.find? (fun rc => rc.name == n)).getD dReadCol))) := by
  cases d with
  | none => cases hman
  | some fs =>
    have hg : getFile fs "bintable.json" = some (FileContent.manifest m) := hman
    unfold BinTable.read at hfull ⊢
    dsimp only at hfull ⊢
    rw [hg] at hfull ⊢
    dsimp only at hfull ⊢
    rw [show requestedEntries m none = Except.ok m.columns from rfl] at hfull
    dsimp only at hfull
    have hini : CacheWF fs { backing := [], maskedbacking := none, opened := [] } := by
      constructor
      · intro p hp; cases hp
      · intro bs hb; cases hb
    obtain ⟨hl1, _⟩ := readLoop_stateless fs m.columns _ hini
    cases hrl : readLoop fs { backing := [], maskedbacking := none, opened := [] } m.columns with
    | mk r st =>
      rw [hrl] at hfull hl1
      dsimp only at hfull hl1
      cases r with
      | error err => cases hfull
      | ok rcs =>
        have hres : res = { meta := m.meta, masked := m.masked, cols := rcs } :=
          (Except.ok.inj hfull).symm
        have hmap : mapE (readColPure fs) m.columns = Except.ok rcs := hl1.symm
        have hf2 := mapE_forall2 (readColPure fs) m.columns rcs hmap
        have hfind := find?_forall2 fs m.columns rcs hf2
        have hsome : ∀ n ∈ S, (coldictFind m.columns n).isSome := by
          intro n hn
          rw [coldictFind_nodup m.columns n hnd]
          obtain ⟨e, he, hname⟩ := List.mem_map.mp (hS n hn)
          exact List.find?_isSome.mpr ⟨e, he, by rw [hname]; exact beq_self_eq_true n⟩
        have hkey : ∀ n ∈ S,
            readColPure fs ((coldictFind m.columns n).getD dEntry)
              = Except.ok ((rcs.find? (fun rc => rc.name == n)).getD dReadCol) := by
          intro n hn
          have hsm := hsome n hn
          rw [coldictFind_nodup m.columns n hnd] at hsm ⊢
          cases hfe : m.columns.find? (fun e => e.name == n) with
          | none => rw [hfe] at hsm; cases hsm
          | some e =>
            have hfn := hfind n
            rw [hfe] at hfn
            cases hfr : rcs.find? (fun rc => rc.name == n) with
            | none => rw [hfr] at hfn; cases hfn
            | some rc =>
              rw [hfr] at hfn
              dsimp only [Option.map] at hfn
              exact Option.some.inj hfn
        rw [show requestedEntries m (some S) = resolveSubset m.columns S from rfl,
          resolveSubset_ok m.columns S hsome]
        dsimp only
        obtain ⟨hl2, _⟩ := readLoop_stateless fs
          (S.map (fun n => (coldictFind m.columns n).getD dEntry)) _ hini
        cases hrl2 : readLoop fs { backing := [], maskedbacking := none, opened := [] }
            (S.map (fun n => (coldictFind m.columns n).getD dEntry)) with
        | mk r2 st2 =>
          rw [hrl2] at hl2
          dsimp only at hl2
          have hr2 : r2 = Except.ok (S.map
              (fun n => (rcs.find? (fun rc => rc.name == n)).getD dReadCol)) := by
            rw [hl2]
            exact mapE_map_ok _ _ _ S hkey
          rw [hr2]
          dsimp only
          subst hres
          rfl

/-- Witness for C6 at the three-column example table, requesting
`["flux", "id"]`. -/
theorem c6_selective_read_witness :
    fileAt (writeFs exT none) "bintable.json"
        = some (FileContent.manifest (manifestSpec exT))
    ∧ ((manifestSpec exT).columns.map (fun e => e.name)).Nodup
    ∧ (∀ n ∈ ["flux", "id"],
        n ∈ (manifestSpec exT).columns.map (fun e => e.name))
    ∧ (read (writeFs exT none) none).1
        = Except.ok (ReadResult.mk exT.meta exT.masked
            (exT.columns.map (expectedCol exT.masked)))
    ∧ (read (writeFs exT none) (some ["flux", "id"])).1
        = Except.ok (ReadResult.mk exT.meta exT.masked
            (["flux", "id"].map (fun n =>
              (((exT.columns.map (expectedCol exT.masked)).find?
                  (fun rc => rc.name == n)).getD dReadCol)))) :=
  ⟨by decide, by decide, by decide, by decide,
   c6_selective_read (writeFs exT none) (manifestSpec exT) ["flux", "id"]
     (ReadResult.mk exT.meta exT.masked (exT.columns.map (expectedCol exT.masked)))
     (by decide) (by decide) (by decide) (by decide)⟩

end BinTable
